import Mathlib

/-!
Verification development for the outline-compression engine of
better-playwright-mcp: a shallow embedding of
`src/utils/smart-outline-simple.ts`, `src/utils/remove-useless-wrappers.ts`,
`src/utils/dom-simhash.ts`, the list detector (`list-detector.ts`) and the
smart outline generator, together with proofs and refutations of the spec's
claims about them.

Strings are modelled as Lean `String` / `List Char`; JavaScript numbers that
only ever hold integers are modelled as `Nat` or `Int` (32-bit bitwise
operations are taken modulo 2 ^ 32, matching JS `>>> 0` semantics).
-/

set_option maxHeartbeats 1000000

namespace BetterPlaywright

/-! ## JavaScript string primitives -/

/-- The character class of JavaScript `\s` (also the set trimmed by
`String.prototype.trim` / `trimStart`). -/
def isJsSpace (c : Char) : Bool :=
  c = ' ' || c = '\t' || c = '\n' || c = '\r' || c.val = 0x0b || c.val = 0x0c ||
  c.val = 0xa0 || c.val = 0x1680 || (0x2000 ≤ c.val && c.val ≤ 0x200a) ||
  c.val = 0x2028 || c.val = 0x2029 || c.val = 0x202f || c.val = 0x205f ||
  c.val = 0x3000 || c.val = 0xfeff

/-- Lowercase ASCII letter, the regex class `[a-z]`. -/
def isLowerAZ (c : Char) : Bool := 'a' ≤ c && c ≤ 'z'

/-- The ECMAScript LineTerminator set: `\n`, `\r`, U+2028, U+2029.  The
regex `.` (without the `s` flag) matches any character except these, and
`$` (without the `m` flag) matches only at the end of the input. -/
def isLineTerm (c : Char) : Bool :=
  c = '\n' || c = '\r' || c.val = 0x2028 || c.val = 0x2029

/-- JavaScript `String.prototype.trim` (both ends). -/
def jsTrim (l : List Char) : List Char :=
  ((l.dropWhile isJsSpace).reverse.dropWhile isJsSpace).reverse

/-- Substring occurrence test, JavaScript `String.prototype.includes`. -/
def containsSub (pat : List Char) : List Char → Bool
  | [] => pat.isPrefixOf []
  | c :: rest => pat.isPrefixOf (c :: rest) || containsSub pat rest

/-- JavaScript `String.prototype.split('\n')`: always returns at least one
(possibly empty) piece. -/
def splitNl : List Char → List (List Char)
  | [] => [[]]
  | c :: rest =>
    if c = '\n' then [] :: splitNl rest
    else
      match splitNl rest with
      | [] => [[c]]   -- unreachable: splitNl never returns []
      | h :: t => (c :: h) :: t

theorem splitNl_ne_nil (l : List Char) : splitNl l ≠ [] := by
  induction l with
  | nil => simp [splitNl]
  | cons c rest ih =>
    simp only [splitNl]
    split
    · simp
    · cases h : splitNl rest <;> simp

/-- The list of lines of a snapshot string, as produced by `split('\n')`. -/
def jsLines (s : String) : List String := (splitNl s.data).map String.mk

theorem jsLines_length_pos (s : String) : 0 < (jsLines s).length := by
  unfold jsLines
  cases h : splitNl s.data with
  | nil => exact absurd h (splitNl_ne_nil s.data)
  | cons a t => simp

/-- JavaScript `Array.prototype.slice(start, stop)` with the clamping rules
for out-of-range and negative arguments. -/
def jsSlice (l : List α) (start stop : Int) : List α :=
  let len : Int := l.length
  let s := if start < 0 then max (len + start) 0 else min start len
  let e := if stop < 0 then max (len + stop) 0 else min stop len
  (l.take e.toNat).drop s.toNat

/-- `' '.repeat n`. -/
def spaces (n : Nat) : String := String.mk (List.replicate n ' ')

/-! ## Data model: ElementNode (src/types/outline.ts) -/

/-- One parsed snapshot line.  `parent` back-references are not modelled:
the tree is functional, a node owns its `children`.  `groupId` is the
optional group tag assigned by the generator's repetitive-pattern pass. -/
structure ElementNode where
  indent : Nat
  type : String
  ref : String
  content : String
  line : String
  lineNumber : Nat
  hasInteraction : Bool
  priority : Int
  isRepetitive : Bool
  groupId : Option String
  children : List ElementNode
  deriving Repr

/-- Structural size of a node (1 + sizes of all descendants); used as the
termination measure of the bottom-up tree transformations. -/
def nsize : ElementNode → Nat
  | ⟨_, _, _, _, _, _, _, _, _, _, ch⟩ => 1 + lsize ch
where
  /-- Total size of a forest. -/
  lsize : List ElementNode → Nat
    | [] => 0
    | n :: rest => nsize n + lsize rest

export nsize (lsize)

theorem nsize_pos (n : ElementNode) : 0 < nsize n := by
  cases n; simp [nsize]

theorem nsize_eq (n : ElementNode) : nsize n = 1 + lsize n.children := by
  cases n; rfl

theorem lsize_cons (n : ElementNode) (l : List ElementNode) :
    lsize (n :: l) = nsize n + lsize l := rfl

theorem nsize_le_lsize_of_mem {n : ElementNode} {l : List ElementNode}
    (h : n ∈ l) : nsize n ≤ lsize l := by
  induction l with
  | nil => cases h
  | cons a t ih =>
    rcases List.mem_cons.mp h with h | h
    · subst h; simp [lsize_cons]
    · have := ih h; simp [lsize_cons]; omega

mutual
/-- Pre-order listing of all nodes of a forest. -/
def preorderF : List ElementNode → List ElementNode
  | [] => []
  | n :: rest => preorderN n ++ preorderF rest

/-- Pre-order listing of a single subtree. -/
def preorderN : ElementNode → List ElementNode
  | n@⟨_, _, _, _, _, _, _, _, _, _, ch⟩ => n :: preorderF ch
end

mutual
/-- Structural equality test on nodes. -/
def ElementNode.beq : ElementNode → ElementNode → Bool
  | ⟨i1, t1, r1, c1, l1, n1, h1, p1, v1, g1, ch1⟩,
    ⟨i2, t2, r2, c2, l2, n2, h2, p2, v2, g2, ch2⟩ =>
    i1 == i2 && t1 == t2 && r1 == r2 && c1 == c2 && l1 == l2 && n1 == n2 &&
    h1 == h2 && p1 == p2 && v1 == v2 && g1 == g2 && ElementNode.beqL ch1 ch2

/-- Structural equality test on forests. -/
def ElementNode.beqL : List ElementNode → List ElementNode → Bool
  | [], [] => true
  | a :: as, b :: bs => ElementNode.beq a b && ElementNode.beqL as bs
  | _, _ => false
end

mutual
theorem ElementNode.beq_iff : ∀ a b : ElementNode, ElementNode.beq a b = true ↔ a = b
  | ⟨i1, t1, r1, c1, l1, n1, h1, p1, v1, g1, ch1⟩,
    ⟨i2, t2, r2, c2, l2, n2, h2, p2, v2, g2, ch2⟩ => by
    simp only [ElementNode.beq, Bool.and_eq_true, beq_iff_eq, ElementNode.mk.injEq]
    constructor
    · rintro ⟨⟨⟨⟨⟨⟨⟨⟨⟨⟨e1, e2⟩, e3⟩, e4⟩, e5⟩, e6⟩, e7⟩, e8⟩, e9⟩, e10⟩, e11⟩
      exact ⟨e1, e2, e3, e4, e5, e6, e7, e8, e9, e10, (ElementNode.beqL_iff ch1 ch2).1 e11⟩
    · rintro ⟨e1, e2, e3, e4, e5, e6, e7, e8, e9, e10, e11⟩
      exact ⟨⟨⟨⟨⟨⟨⟨⟨⟨⟨e1, e2⟩, e3⟩, e4⟩, e5⟩, e6⟩, e7⟩, e8⟩, e9⟩, e10⟩,
        (ElementNode.beqL_iff ch1 ch2).2 e11⟩

theorem ElementNode.beqL_iff : ∀ a b : List ElementNode, ElementNode.beqL a b = true ↔ a = b
  | [], [] => by simp [ElementNode.beqL]
  | [], _ :: _ => by simp [ElementNode.beqL]
  | _ :: _, [] => by simp [ElementNode.beqL]
  | a :: as, b :: bs => by
    simp only [ElementNode.beqL, Bool.and_eq_true, List.cons.injEq]
    constructor
    · rintro ⟨e1, e2⟩
      exact ⟨(ElementNode.beq_iff a b).1 e1, (ElementNode.beqL_iff as bs).1 e2⟩
    · rintro ⟨e1, e2⟩
      exact ⟨(ElementNode.beq_iff a b).2 e1, (ElementNode.beqL_iff as bs).2 e2⟩
end

instance : DecidableEq ElementNode := fun a b =>
  decidable_of_iff (ElementNode.beq a b = true) (ElementNode.beq_iff a b)

/-! ## Line parser (shared by SmartOutlineSimple and SmartOutlineGenerator)

The regex `/^\s*-\s*([a-z]+)(.*)$/` is deterministic up to maximal munch
(whitespace, the dash and `[a-z]` are disjoint character classes), and
`(.*)$` adds one real constraint: `.` never matches a LineTerminator and
`$` (no `m` flag) only matches at the end of the input, so the match fails
whenever the remainder after the kind token contains a line terminator.
Shrinking `[a-z]+` or `\s*` on backtracking only moves characters into the
remainder, never a terminator out of it, so maximal munch plus that check
is the exact acceptance. -/

/-- Match of `^\s*-\s*([a-z]+)(.*)$`: returns the kind token and the rest,
failing when the rest contains a line terminator (which `(.*)$` cannot
span). -/
def parseLineCore (l : List Char) : Option (List Char × List Char) :=
  match l.dropWhile isJsSpace with
  | [] => none
  | c :: r1 =>
    if c = '-' then
      let r2 := r1.dropWhile isJsSpace
      let tok := r2.takeWhile isLowerAZ
      if tok.isEmpty then none
      else
        let rest := r2.dropWhile isLowerAZ
        if rest.any isLineTerm then none else some (tok, rest)
    else none

/-- Try to match `\[ref=([^\]]+)\]` at the head of `l`; on success return the
captured group. -/
def matchRefAt (l : List Char) : Option (List Char) :=
  if ['[', 'r', 'e', 'f', '='].isPrefixOf l then
    let after := l.drop 5
    let cap := after.takeWhile (fun c => c ≠ ']')
    if cap.isEmpty then none
    else if (after.drop cap.length).head? = some ']' then some cap else none
  else none

/-- First match of `\[ref=([^\]]+)\]` in `l` (match index and capture),
like JavaScript `String.prototype.match` with a non-global regex. -/
def findRefAux : List Char → Nat → Option (Nat × List Char)
  | [], _ => none
  | c :: rest, i =>
    match matchRefAt (c :: rest) with
    | some cap => some (i, cap)
    | none => findRefAux rest (i + 1)

namespace SmartOutlineSimple

/-- `SmartOutlineSimple.parseLine` (smart-outline-simple.ts). -/
def parseLine (line : String) (lineNumber : Nat) : Option ElementNode :=
  let chars := line.data
  let indent := (chars.takeWhile isJsSpace).length
  match parseLineCore chars with
  | none => none
  | some (tok, rest) =>
    let (ref, content) :=
      match findRefAux rest 0 with
      | some (idx, cap) => (String.mk cap, String.mk (jsTrim (rest.take idx)))
      | none => ("", String.mk rest)
    some
      { indent := indent
        type := String.mk tok
        ref := ref
        content := content
        line := line
        lineNumber := lineNumber
        hasInteraction := containsSub "[cursor=pointer]".data chars
        priority := 5
        isRepetitive := false
        groupId := none
        children := [] }

/-! ### Tree builder

The imperative builder pushes each node into the `children` array of the
current stack top (an alias into the tree being built).  The functional
rendition below accumulates the pending children of every open node on the
stack and attaches a node to its parent when it is popped; the final tree is
the same because a popped node never receives further children. -/

/-- Continue popping with `c` the node finalized by the previous pop: either
the next entry also pops (and `c` becomes its last child before it is
finalized in turn), or `c` is attached to the surviving top, or the stack is
exhausted and `c` becomes a root. -/
def popAux (ind : Nat) (c : ElementNode) :
    List (ElementNode × List ElementNode) → List ElementNode →
    List (ElementNode × List ElementNode) × List ElementNode
  | [], roots => ([], roots ++ [c])
  | (p, pacc) :: r2, roots =>
    if ind ≤ p.indent then popAux ind { p with children := pacc ++ [c] } r2 roots
    else ((p, pacc ++ [c]) :: r2, roots)

/-- Pop every stack entry whose indent is `≥ ind`, attaching each finalized
node as the last child of the entry below it (or as a root). -/
def popGE (ind : Nat) (stack : List (ElementNode × List ElementNode))
    (roots : List ElementNode) :
    List (ElementNode × List ElementNode) × List ElementNode :=
  match stack with
  | [] => ([], roots)
  | (m, acc) :: rest =>
    if ind ≤ m.indent then popAux ind { m with children := acc } rest roots
    else ((m, acc) :: rest, roots)

/-- One iteration of the tree-builder loop for an accepted node. -/
def buildStep (st : List (ElementNode × List ElementNode) × List ElementNode)
    (n : ElementNode) : List (ElementNode × List ElementNode) × List ElementNode :=
  let (stack, roots) := popGE n.indent st.1 st.2
  ((n, []) :: stack, roots)

/-- The tree-builder loop body: skip blank lines, skip unparseable lines,
otherwise push the parsed node. -/
def buildLine (st : List (ElementNode × List ElementNode) × List ElementNode)
    (p : Nat × String) : List (ElementNode × List ElementNode) × List ElementNode :=
  if (p.2.data.dropWhile isJsSpace).isEmpty then st
  else
    match parseLine p.2 p.1 with
    | none => st
    | some n => buildStep st n

/-- `SmartOutlineSimple.buildTree`. -/
def buildTree (lines : List String) : List ElementNode :=
  let (stack, roots) := lines.enum.foldl buildLine ([], [])
  (popGE 0 stack roots).2

end SmartOutlineSimple

/-! ## DOMSimHash (src/utils/dom-simhash.ts)

The per-run fingerprint cache (`hashCache`, keyed by object identity) only
memoizes `computeHash`, which is a pure function of the node, so it is
dropped in the embedding without changing any result. -/

theorem nsize_lt_of_mem_children {c n : ElementNode} (h : c ∈ n.children) :
    nsize c < nsize n := by
  have := nsize_le_lsize_of_mem h
  have := nsize_eq n
  omega

namespace DOMSimHash

/-- `getSkeletonSignature`: kind of the node, of its first 5 children, and of
the first 3 children of its first child. -/
def getSkeletonSignature (node : ElementNode) : String :=
  let childTypes := String.intercalate "+" ((node.children.take 5).map (·.type))
  let signature := if childTypes = "" then node.type else node.type ++ ">" ++ childTypes
  match node.children with
  | [] => signature
  | c0 :: _ =>
    if c0.children.length > 0 then
      signature ++ ">" ++ String.intercalate "+" ((c0.children.take 3).map (·.type))
    else signature

/-- `getShapeSignature`: child count and the child counts of the first 3
children. -/
def getShapeSignature (node : ElementNode) : String :=
  let widths := node.children.length :: (node.children.take 3).map (·.children.length)
  "w" ++ String.intercalate "-" (widths.map toString)

mutual
/-- All kind strings occurring in the subtree within depth 2 of the node
(the `count` recursion of `getTypeCountSignature`). -/
def typesUpTo : ElementNode → Nat → List String
  | ⟨_, ty, _, _, _, _, _, _, _, _, ch⟩, depth =>
    if depth > 2 then [] else ty :: typesUpToL ch (depth + 1)

/-- `typesUpTo` over a child list. -/
def typesUpToL : List ElementNode → Nat → List String
  | [], _ => []
  | c :: rest, depth => typesUpTo c depth ++ typesUpToL rest depth
end

/-- `getTypeCountSignature`. -/
def getTypeCountSignature (node : ElementNode) : String :=
  let tys := typesUpTo node 0
  let important := ["button", "link", "text", "img", "heading", "checkbox", "radio"]
  let sig := String.join ((important.map fun t =>
    let c := tys.count t
    if c > 0 then t.take 1 ++ toString c else "").filter (· ≠ ""))
  if sig = "" then "empty" else sig

mutual
/-- The `check` recursion of `hasInteractiveElements`. -/
def checkInteractive : ElementNode → Nat → Bool
  | ⟨_, ty, _, _, _, _, _, _, _, _, ch⟩, depth =>
    if depth > 2 then false
    else if ty = "button" || ty = "link" || ty = "checkbox" || ty = "radio" then true
    else checkInteractiveL ch (depth + 1)

/-- `children.some(c => check(c, depth + 1))`. -/
def checkInteractiveL : List ElementNode → Nat → Bool
  | [], _ => false
  | c :: rest, depth => checkInteractive c depth || checkInteractiveL rest depth
end

/-- `hasInteractiveElements`. -/
def hasInteractiveElements (node : ElementNode) : Bool :=
  containsSub "[cursor=pointer]".data node.line.data || checkInteractive node 0

mutual
/-- `getMaxDepth` (`Math.max` over the nonempty child list equals the fold
with 0 since depths are nonnegative). -/
def getMaxDepth : ElementNode → Nat
  | ⟨_, _, _, _, _, _, _, _, _, _, ch⟩ =>
    if ch.isEmpty then 0 else 1 + getMaxDepthL ch

/-- Maximum of `getMaxDepth` over a child list. -/
def getMaxDepthL : List ElementNode → Nat
  | [] => 0
  | c :: rest => max (getMaxDepth c) (getMaxDepthL rest)
end

/-- `extractFeatures`. -/
def extractFeatures (node : ElementNode) : List String :=
  [getSkeletonSignature node, getShapeSignature node, getTypeCountSignature node] ++
  (if hasInteractiveElements node then ["interactive"] else []) ++
  ["d" ++ toString (getMaxDepth node)]

/-- Reduce an integer to the signed 32-bit range, JavaScript `ToInt32`. -/
def toInt32 (x : Int) : Int :=
  let m := x % 4294967296
  if m ≥ 2147483648 then m - 4294967296 else m

/-- Reduce an integer to the unsigned 32-bit range, JavaScript `x >>> 0`. -/
def toUint32 (x : Int) : Nat := (x % 4294967296).toNat

/-- UTF-16 code units of a character, as read by `charCodeAt`. -/
def utf16Units (c : Char) : List Nat :=
  let v := c.toNat
  if v < 0x10000 then [v]
  else [0xd800 + (v - 0x10000) / 0x400, 0xdc00 + (v - 0x10000) % 0x400]

/-- `djb2Hash`: `hash = (hash << 5) + hash + c` over the code units, then
`>>> 0`.  The JS `<<` truncates its operand to 32 signed bits; the following
additions are exact. -/
def djb2Hash (str : String) : Nat :=
  toUint32 ((str.data.flatMap utf16Units).foldl
    (fun h c => toInt32 (h * 32) + h + (c : Int)) 5381)

/-- `getWeight`. -/
def getWeight (feature : String) : Int :=
  if containsSub ['>'] feature.data then 5
  else if feature.data.head? = some 'w' then 3
  else if feature.data.head? = some 'd' then 2
  else 1

/-- Accumulated weighted vote for bit `i` over all features (the inner
`vector[i] += bit ? weight : -weight` loop; the two loops commute). -/
def bitScore (features : List String) (i : Nat) : Int :=
  features.foldl
    (fun acc f => acc + (if (djb2Hash f).testBit i then getWeight f else -getWeight f)) 0

/-- `computeHash`: 32-bit SimHash, represented as the unsigned value of the
bit pattern (the JS value is the same pattern as a signed Int32). -/
def computeHash (node : ElementNode) : Nat :=
  let features := extractFeatures node
  (List.range 32).foldl
    (fun sh i => if 0 < bitScore features i then sh + 2 ^ i else sh) 0

/-- Bit-count loop of `hammingDistance`, with explicit fuel to make the
halving recursion structural.  The loop halves its argument until it reaches
0, so `n` itself is always enough fuel and the zero-fuel branch is
unreachable. -/
def popcountF : Nat → Nat → Nat
  | _, 0 => 0
  | 0, _ + 1 => 0
  | fuel + 1, n + 1 => (n + 1) % 2 + popcountF fuel ((n + 1) / 2)

/-- Bit-count loop of `hammingDistance`. -/
def popcount (n : Nat) : Nat := popcountF n n

/-- `hammingDistance` on two 32-bit patterns. -/
def hammingDistance (hash1 hash2 : Nat) : Nat := popcount (hash1 ^^^ hash2)

/-- `areSimilar` (the source's `threshold` parameter defaults to 3). -/
def areSimilar (node1 node2 : ElementNode) (threshold : Nat) : Bool :=
  hammingDistance (computeHash node1) (computeHash node2) ≤ threshold

/-- Accumulator of `findSimilarSequence`'s search. -/
structure FSSState where
  maxLen : Nat
  bestStart : Nat
  bestEnd : Nat
  bestBaseHash : Nat
  deriving Repr, DecidableEq

/-- Result record of `findSimilarSequence` (`end` is a Lean keyword, hence
`endIdx`). -/
structure SimilarSeq where
  start : Nat
  endIdx : Nat
  samples : List ElementNode
  baseHash : Nat
  deriving Repr, DecidableEq

/-- Inner extension loop of `findSimilarSequence`: walk `rest` (the nodes
from position `j` on), extending the run based at position `i`. -/
def fssInner (baseHash i : Nat) : List ElementNode → Nat → Nat → FSSState → FSSState
  | [], _, _, st => st
  | node :: rest, j, simCount, st =>
    if hammingDistance baseHash (computeHash node) ≤ 3 then
      let sc := simCount + 1
      let st' := if 3 ≤ sc ∧ st.maxLen < sc then ⟨sc, i, j, baseHash⟩ else st
      fssInner baseHash i rest (j + 1) sc st'
    else if 3 ≤ simCount then st
    else fssInner baseHash i rest (j + 1) simCount st

/-- Outer loop of `findSimilarSequence` over window starts; the first list
argument is the suffix of the node list from position `i` on (so the guard
`3 ≤ length` is the source's `i <= nodes.length - 3`). -/
def fssOuter : List ElementNode → Nat → FSSState → FSSState
  | [], _, st => st
  | x :: rest, i, st =>
    if 3 ≤ rest.length + 1 then
      fssOuter rest (i + 1) (fssInner (computeHash x) i rest (i + 1) 1 st)
    else st

/-- `findSimilarSequence`. -/
def findSimilarSequence (nodes : List ElementNode) : Option SimilarSeq :=
  if nodes.length < 3 then none
  else
    let st := fssOuter nodes 0 ⟨0, 0, 0, 0⟩
    if 3 ≤ st.maxLen then
      some ⟨st.bestStart, st.bestEnd,
        (nodes.drop st.bestStart).take (st.bestEnd + 1 - st.bestStart), st.bestBaseHash⟩
    else none

/-- Entry of the `findAllSimilarSequences` result list. -/
structure SeqGroup where
  start : Nat
  endIdx : Nat
  count : Nat
  sample : ElementNode
  deriving Repr, DecidableEq

/-- Main loop of `findAllSimilarSequences`: `remaining` is the list of
still-unprocessed `(index, node)` pairs in original order.  Each round
consumes at least one pair, so `remaining.length` is always enough fuel and
the zero-fuel branch is unreachable; the impossible out-of-bounds branch
returns the sequences found so far (the bound always holds, see
`findSimilarSequence_bounds`). -/
def fassLoop : Nat → List (Nat × ElementNode) → List SeqGroup
  | 0, _ => []
  | fuel + 1, remaining =>
    if remaining.length < 3 then []
    else
      match findSimilarSequence (remaining.map Prod.snd) with
      | none => []
      | some seq =>
        if hb : seq.start ≤ seq.endIdx ∧ seq.endIdx < remaining.length then
          let pStart := remaining.get ⟨seq.start, lt_of_le_of_lt hb.1 hb.2⟩
          let pEnd := remaining.get ⟨seq.endIdx, hb.2⟩
          ⟨pStart.1, pEnd.1, seq.endIdx - seq.start + 1, pStart.2⟩ ::
            fassLoop fuel (remaining.take seq.start ++ remaining.drop (seq.endIdx + 1))
        else []

/-- `findAllSimilarSequences`. -/
def findAllSimilarSequences (nodes : List ElementNode) : List SeqGroup :=
  fassLoop nodes.length nodes.enum

end DOMSimHash

/-! ## ListDetector (list-detector.ts) -/

instance : Inhabited ElementNode :=
  ⟨{ indent := 0, type := "", ref := "", content := "", line := "", lineNumber := 0,
     hasInteraction := false, priority := 5, isRepetitive := false, groupId := none,
     children := [] }⟩

namespace ListDetector

/-- The TS union `'semantic' | 'structural'`. -/
inductive PatternType where
  | semantic
  | structural
  deriving Repr, DecidableEq

/-- `ListPattern` (list-detector.ts); `end` is a Lean keyword, hence `endIdx`. -/
structure ListPattern where
  type : PatternType
  start : Nat
  endIdx : Nat
  count : Nat
  sample : ElementNode
  items : List ElementNode
  refs : List String
  deriving Repr, DecidableEq

/-- `items.map(n => n.ref).filter(r => r)`. -/
def refsOf (items : List ElementNode) : List String :=
  (items.map (·.ref)).filter (· ≠ "")

/-- Result record of `findStructurallySimilar`. -/
structure SimilarRun where
  start : Nat
  endIdx : Nat
  count : Nat
  sample : ElementNode
  items : List ElementNode
  deriving Repr, DecidableEq

/-- `findStructurallySimilar`. -/
def findStructurallySimilar (nodes : List ElementNode) : Option SimilarRun :=
  match DOMSimHash.findSimilarSequence nodes with
  | none => none
  | some seq =>
    some ⟨seq.start, seq.endIdx, seq.endIdx - seq.start + 1,
      nodes.getD seq.start default, seq.samples⟩

/-- The semantic pattern built from a structurally similar sub-run of the
`listitem` run `cur` starting at sibling index `s`. -/
def semanticSimPattern (s : Nat) (sim : SimilarRun) : ListPattern :=
  ⟨.semantic, s + sim.start, s + sim.endIdx, sim.count, sim.sample, sim.items,
    refsOf sim.items⟩

/-- The semantic pattern covering the whole run when no similar sub-run is
found ("role agreement alone suffices"). -/
def semanticWholePattern (cur : List ElementNode) (s : Nat) : ListPattern :=
  ⟨.semantic, s, s + cur.length - 1, cur.length, cur.getD 0 default, cur, refsOf cur⟩

/-- The semantic pattern(s) emitted for a finished `listitem` run `cur` that
started at sibling index `s` (the mid-scan push site of
`detectSemanticLists`). -/
def semanticEmit (cur : List ElementNode) (s : Nat) : List ListPattern :=
  match findStructurallySimilar cur with
  | some sim => [semanticSimPattern s sim]
  | none => [semanticWholePattern cur s]

/-- Scan loop of `detectSemanticLists`: the first argument is the suffix
from index `i` on, `cur` the current consecutive `listitem` run, `s` its
start index.  At the end of the scan a trailing run is emitted only when a
structurally similar sub-run exists (the source has no whole-run fallback
there). -/
def dslLoop : List ElementNode → Nat → List ElementNode → Nat → List ListPattern
  | [], _, cur, s =>
    if 3 ≤ cur.length then
      match findStructurallySimilar cur with
      | some sim => [semanticSimPattern s sim]
      | none => []
    else []
  | node :: rest, i, cur, s =>
    if node.type = "listitem" then
      dslLoop rest (i + 1) (cur ++ [node]) (if cur.isEmpty then i else s)
    else
      (if 3 ≤ cur.length then semanticEmit cur s else []) ++ dslLoop rest (i + 1) [] 0

/-- `detectSemanticLists`. -/
def detectSemanticLists (nodes : List ElementNode) : List ListPattern :=
  dslLoop nodes 0 [] 0

/-- Index `i` is covered by the range of one of the semantic patterns (the
`processed` set of `detectStructuralLists`). -/
def inSemanticRange (semanticLists : List ListPattern) (i : Nat) : Bool :=
  semanticLists.any fun p => p.start ≤ i && i ≤ p.endIdx

/-- Append `entry` to the group of key `ind`, keeping first-occurrence key
order (JS `Map` insertion-order semantics). -/
def upsert (groups : List (Nat × List (Nat × ElementNode))) (ind : Nat)
    (entry : Nat × ElementNode) : List (Nat × List (Nat × ElementNode)) :=
  match groups with
  | [] => [(ind, [entry])]
  | (k, g) :: rest =>
    if k = ind then (k, g ++ [entry]) :: rest else (k, g) :: upsert rest ind entry

/-- The `indentGroups` map: unprocessed `(index, node)` pairs grouped by
indent. -/
def buildIndentGroups (nodes : List ElementNode) (semanticLists : List ListPattern) :
    List (Nat × List (Nat × ElementNode)) :=
  nodes.enum.foldl
    (fun groups p =>
      if inSemanticRange semanticLists p.1 then groups
      else upsert groups p.2.indent p)
    []

/-- `detectStructuralLists`. -/
def detectStructuralLists (nodes : List ElementNode) (semanticLists : List ListPattern) :
    List ListPattern :=
  (buildIndentGroups nodes semanticLists).flatMap fun g =>
    let group := g.2
    if group.length < 3 then []
    else
      (DOMSimHash.findAllSimilarSequences (group.map Prod.snd)).map fun seq =>
        let items := (jsSlice group seq.start (seq.endIdx + 1)).map Prod.snd
        ⟨.structural, (group.getD seq.start default).1, (group.getD seq.endIdx default).1,
          seq.count, seq.sample, items, refsOf items⟩

/-- Stable insertion step for the final sort by starting position. -/
def insertByStart (x : ListPattern) : List ListPattern → List ListPattern
  | [] => [x]
  | y :: rest => if y.start < x.start then y :: insertByStart x rest else x :: y :: rest

/-- Stable sort by starting position, modelling the JS
`lists.sort((a, b) => a.start - b.start)` (stable per the ECMAScript
specification). -/
def sortByStart : List ListPattern → List ListPattern
  | [] => []
  | x :: rest => insertByStart x (sortByStart rest)

theorem insertByStart_perm (x : ListPattern) :
    ∀ l : List ListPattern, (insertByStart x l).Perm (x :: l) := by
  intro l
  induction l with
  | nil => exact List.Perm.refl _
  | cons y rest ih =>
    rw [insertByStart]
    by_cases h : y.start < x.start
    · rw [if_pos h]
      exact (ih.cons y).trans (List.Perm.swap x y rest)
    · rw [if_neg h]

theorem sortByStart_perm : ∀ l : List ListPattern, (sortByStart l).Perm l := by
  intro l
  induction l with
  | nil => exact List.Perm.refl _
  | cons x rest ih =>
    rw [sortByStart]
    exact (insertByStart_perm x (sortByStart rest)).trans (ih.cons x)

/-- `detectLists`: semantic patterns first, then structural ones, sorted by
start position. -/
def detectLists (nodes : List ElementNode) : List ListPattern :=
  sortByStart (detectSemanticLists nodes ++ detectStructuralLists nodes (detectSemanticLists nodes))

end ListDetector

/-! ## Bounds of the similarity search -/

namespace DOMSimHash

/-- Once `maxLen ≥ 3`, the recorded window `[bestStart, bestEnd]` spans at
least 3 positions and ends inside the list. -/
def FSSValid (n : Nat) (st : FSSState) : Prop :=
  3 ≤ st.maxLen → st.bestStart + 2 ≤ st.bestEnd ∧ st.bestEnd < n

theorem fssInner_valid (n baseHash i : Nat) (l : List ElementNode) :
    ∀ (j simCount : Nat) (st : FSSState),
      FSSValid n st → i + simCount ≤ j → j + l.length = n →
      FSSValid n (fssInner baseHash i l j simCount st) := by
  induction l with
  | nil =>
    intro j sc st hst _ _
    simpa [fssInner] using hst
  | cons node rest ih =>
    intro j sc st hst hcnt hlen
    simp only [List.length_cons] at hlen
    rw [fssInner]
    by_cases hd : hammingDistance baseHash (computeHash node) ≤ 3
    · rw [if_pos hd]
      apply ih
      · by_cases hu : 3 ≤ sc + 1 ∧ st.maxLen < sc + 1
        · rw [if_pos hu]
          intro _
          dsimp only
          omega
        · rw [if_neg hu]
          exact hst
      · omega
      · omega
    · rw [if_neg hd]
      by_cases hs : 3 ≤ sc
      · rw [if_pos hs]; exact hst
      · rw [if_neg hs]
        exact ih (j + 1) sc st hst (by omega) (by omega)

theorem fssOuter_valid (n : Nat) (l : List ElementNode) :
    ∀ (i : Nat) (st : FSSState),
      FSSValid n st → i + l.length = n →
      FSSValid n (fssOuter l i st) := by
  induction l with
  | nil =>
    intro i st hst _
    simpa [fssOuter] using hst
  | cons x rest ih =>
    intro i st hst hlen
    simp only [List.length_cons] at hlen
    rw [fssOuter]
    by_cases hg : 3 ≤ rest.length + 1
    · rw [if_pos hg]
      apply ih
      · exact fssInner_valid n (computeHash x) i rest (i + 1) 1 st hst (by omega) (by omega)
      · omega
    · rw [if_neg hg]
      exact hst

/-- The window returned by `findSimilarSequence` spans at least 3 positions,
ends inside the list, and its `samples` are the corresponding slice. -/
theorem findSimilarSequence_bounds {nodes : List ElementNode} {seq : SimilarSeq}
    (h : findSimilarSequence nodes = some seq) :
    seq.start + 2 ≤ seq.endIdx ∧ seq.endIdx < nodes.length ∧
      seq.samples = (nodes.drop seq.start).take (seq.endIdx + 1 - seq.start) ∧
      seq.samples.length = seq.endIdx + 1 - seq.start := by
  unfold findSimilarSequence at h
  by_cases hlen : nodes.length < 3
  · rw [if_pos hlen] at h; cases h
  · rw [if_neg hlen] at h
    have hv : FSSValid nodes.length (fssOuter nodes 0 ⟨0, 0, 0, 0⟩) :=
      fssOuter_valid nodes.length nodes 0 ⟨0, 0, 0, 0⟩ (by intro h3; simp at h3) (by omega)
    by_cases hm : 3 ≤ (fssOuter nodes 0 ⟨0, 0, 0, 0⟩).maxLen
    · rw [if_pos hm] at h
      obtain ⟨h1, h2⟩ := hv hm
      cases h
      refine ⟨h1, h2, rfl, ?_⟩
      simp only [List.length_take, List.length_drop]
      omega
    · rw [if_neg hm] at h; cases h

/-- The sample positions of every similar run have at least 3 members. -/
theorem findSimilarSequence_len3 {nodes : List ElementNode} {seq : SimilarSeq}
    (h : findSimilarSequence nodes = some seq) : 3 ≤ seq.samples.length := by
  obtain ⟨h1, h2, _, h4⟩ := findSimilarSequence_bounds h
  omega

/-- In a strictly increasing list of naturals, entries grow at least as fast
as their positions. -/
theorem pairwise_lt_get_add {l : List Nat} (h : l.Pairwise (· < ·)) :
    ∀ (b a : Nat) (ha : a < l.length) (hb : b < l.length), a ≤ b →
      l.get ⟨a, ha⟩ + (b - a) ≤ l.get ⟨b, hb⟩ := by
  have hget := List.pairwise_iff_get.mp h
  intro b
  induction b with
  | zero =>
    intro a ha hb hab
    have h0 : a = 0 := by omega
    subst h0
    simp
  | succ b ih =>
    intro a ha hb hab
    rcases Nat.lt_or_ge a (b + 1) with hlt | hge
    · have hb' : b < l.length := by omega
      have h1 := ih a ha hb' (by omega)
      have h2 : l.get ⟨b, hb'⟩ < l.get ⟨b + 1, hb⟩ :=
        hget ⟨b, hb'⟩ ⟨b + 1, hb⟩ (by simp)
      omega
    · have hx : a = b + 1 := by omega
      subst hx
      simp

/-- The leftover list after consuming a found run is a sublist of the
previous `remaining`. -/
theorem take_append_drop_sublist (l : List (Nat × ElementNode)) (s e : Nat) (hse : s ≤ e + 1) :
    (l.take s ++ l.drop (e + 1)).Sublist l := by
  have h1 : l.drop (e + 1) = (l.drop s).drop (e + 1 - s) := by
    rw [List.drop_drop]
    congr 1
    omega
  have h3 : ((l.take s ++ (l.drop s).drop (e + 1 - s))).Sublist (l.take s ++ l.drop s) :=
    List.Sublist.append_left (List.drop_sublist _ _) _
  rw [← h1] at h3
  rwa [List.take_append_drop] at h3

/-- Facts about every sequence `fassLoop` emits, provided the indices of
`remaining` are strictly increasing and below `glen`. -/
theorem fassLoop_facts (glen : Nat) (fuel : Nat) :
    ∀ (remaining : List (Nat × ElementNode)),
      (remaining.map Prod.fst).Pairwise (· < ·) →
      (∀ p ∈ remaining, p.1 < glen) →
      ∀ sq ∈ fassLoop fuel remaining,
        sq.start + 2 ≤ sq.endIdx ∧ sq.endIdx < glen ∧ 3 ≤ sq.count ∧
          (sq.start, sq.sample) ∈ remaining := by
  induction fuel with
  | zero =>
    intro remaining _ _ sq hsq
    cases hsq
  | succ fuel ih =>
    intro remaining hpw hbound sq hsq
    rw [fassLoop] at hsq
    by_cases hlt : remaining.length < 3
    · rw [if_pos hlt] at hsq
      cases hsq
    · rw [if_neg hlt] at hsq
      cases hfss : findSimilarSequence (remaining.map Prod.snd) with
      | none =>
        simp only [hfss] at hsq
        cases hsq
      | some seq =>
        simp only [hfss] at hsq
        by_cases hb : seq.start ≤ seq.endIdx ∧ seq.endIdx < remaining.length
        · rw [dif_pos hb] at hsq
          obtain ⟨hb1, hb2⟩ := hb
          have hbounds := findSimilarSequence_bounds hfss
          have hlen : (remaining.map Prod.snd).length = remaining.length := by simp
          rcases List.mem_cons.mp hsq with hhd | htl
          · subst hhd
            have hs1 : seq.start < remaining.length := lt_of_le_of_lt hb1 hb2
            have hmap1 : (remaining.map Prod.fst).get ⟨seq.start, by simpa using hs1⟩ =
                (remaining.get ⟨seq.start, hs1⟩).1 := by simp
            have hmap2 : (remaining.map Prod.fst).get ⟨seq.endIdx, by simpa using hb2⟩ =
                (remaining.get ⟨seq.endIdx, hb2⟩).1 := by simp
            have hgap := pairwise_lt_get_add hpw seq.endIdx seq.start
              (by simpa using hs1) (by simpa using hb2) hb1
            rw [hmap1, hmap2] at hgap
            have hstart2 : seq.start + 2 ≤ seq.endIdx := by
              have := hbounds.1
              simpa [hlen] using this
            refine ⟨by dsimp only; omega, ?_, ?_, ?_⟩
            · dsimp only
              exact hbound _ (List.get_mem remaining _ _)
            · dsimp only
              omega
            · dsimp only
              have hm : (remaining.get ⟨seq.start, hs1⟩) ∈ remaining :=
                List.get_mem remaining _ _
              simpa using hm
          · have hsub := take_append_drop_sublist remaining seq.start seq.endIdx (by omega)
            have hpw' : ((remaining.take seq.start ++ remaining.drop (seq.endIdx + 1)).map
                Prod.fst).Pairwise (· < ·) :=
              (hpw.sublist (hsub.map Prod.fst))
            have hbound' : ∀ p ∈ remaining.take seq.start ++ remaining.drop (seq.endIdx + 1),
                p.1 < glen := fun p hp => hbound p (hsub.subset hp)
            have hres := ih _ hpw' hbound' sq htl
            exact ⟨hres.1, hres.2.1, hres.2.2.1, hsub.subset hres.2.2.2⟩
        · rw [dif_neg hb] at hsq
          cases hsq

end DOMSimHash

/-! ## Structure of the patterns returned by the list detector -/

theorem take_self_length_le {α : Type} {X c : List α} (h : c = X.take c.length) :
    c.length ≤ X.length := by
  have h2 := congrArg List.length h
  simp only [List.length_take] at h2
  omega

theorem slice_comp {α : Type} {nodes : List α} {s a b : Nat} (c : List α)
    (hc : c = (nodes.drop s).take c.length) (hab : a + b ≤ c.length) :
    (c.drop a).take b = (nodes.drop (s + a)).take b := by
  conv_lhs => rw [hc]
  rw [List.drop_take, List.drop_drop, List.take_take]
  have h1 : min b (c.length - a) = b := Nat.min_eq_left (by omega)
  rw [h1]

theorem slice_length {α : Type} {nodes : List α} {q b : Nat} (h : q + b ≤ nodes.length) :
    ((nodes.drop q).take b).length = b := by
  simp only [List.length_take, List.length_drop]
  omega

theorem getD_mem_of_lt {α : Type} [Inhabited α] {c : List α} {a : Nat} (ha : a < c.length) :
    c.getD a default ∈ c := by
  rw [List.getD_eq_getElem?_getD, List.getElem?_eq_getElem ha]
  exact List.getElem_mem ha

theorem getD_slice_head {α : Type} [Inhabited α] {c : List α} {a b : Nat}
    (ha : a < c.length) (hb : 1 ≤ b) :
    c.getD a default ∈ (c.drop a).take b := by
  have hd : c.drop a = c.get ⟨a, ha⟩ :: c.drop (a + 1) := List.drop_eq_get_cons ha
  have hg : c.getD a default = c.get ⟨a, ha⟩ := by
    rw [List.getD_eq_getElem?_getD, List.getElem?_eq_getElem ha]
    rfl
  rw [hg]
  cases b with
  | zero => omega
  | succ b =>
    rw [hd, List.take_succ_cons]
    exact List.mem_cons_self _ _

theorem mem_slice_index {α : Type} {nodes : List α} {a b : Nat} {x : α}
    (hx : x ∈ (nodes.drop a).take b) :
    ∃ r, a ≤ r ∧ r < a + b ∧ ∃ hr : r < nodes.length, x = nodes.get ⟨r, hr⟩ := by
  obtain ⟨k, hk⟩ := List.mem_iff_get.mp hx
  have hkb : (k : Nat) < b ∧ (k : Nat) < nodes.length - a := by
    have := k.isLt
    simp only [List.length_take, List.length_drop] at this
    omega
  have h1 : ((nodes.drop a).take b).get k = (nodes.drop a).get ⟨k, by
      simp only [List.length_drop]; omega⟩ := by
    simp [List.get_eq_getElem, List.getElem_take]
  have h2 : (nodes.drop a).get ⟨(k : Nat), by simp only [List.length_drop]; omega⟩ =
      nodes.get ⟨a + k, by omega⟩ := by
    simp [List.get_eq_getElem, List.getElem_drop]
  refine ⟨a + k, by omega, by omega, by omega, ?_⟩
  rw [← hk, h1, h2]

namespace ListDetector

theorem findStructurallySimilar_bounds {cur : List ElementNode} {sim : SimilarRun}
    (h : findStructurallySimilar cur = some sim) :
    sim.start + 2 ≤ sim.endIdx ∧ sim.endIdx < cur.length ∧
      sim.items = (cur.drop sim.start).take (sim.endIdx + 1 - sim.start) ∧
      sim.count = sim.endIdx - sim.start + 1 ∧
      sim.sample = cur.getD sim.start default := by
  unfold findStructurallySimilar at h
  cases hf : DOMSimHash.findSimilarSequence cur with
  | none => rw [hf] at h; cases h
  | some seq =>
    rw [hf] at h
    obtain ⟨h1, h2, h3, h4⟩ := DOMSimHash.findSimilarSequence_bounds hf
    cases h
    exact ⟨h1, h2, h3, rfl, rfl⟩

/-- Shape of a semantic pattern relative to the sibling list it was detected
in: its items are exactly the contiguous block of siblings from `start` to
`endIdx`, it has at least 3 items, and its sample is one of them. -/
def SemPat (nodes : List ElementNode) (p : ListPattern) : Prop :=
  p.type = .semantic ∧ p.start ≤ p.endIdx ∧ p.endIdx < nodes.length ∧
    p.items = (nodes.drop p.start).take (p.endIdx + 1 - p.start) ∧
    3 ≤ p.count ∧ 3 ≤ p.items.length ∧ p.sample ∈ p.items

/-- The patterns of a list occupy increasing, pairwise disjoint index
ranges, the first starting at or after `lb`. -/
def Chained : Nat → List ListPattern → Prop
  | _, [] => True
  | lb, p :: rest => lb ≤ p.start ∧ p.start ≤ p.endIdx ∧ Chained (p.endIdx + 1) rest

theorem Chained_mono {lb lb' : Nat} (h : lb ≤ lb') :
    ∀ {l : List ListPattern}, Chained lb' l → Chained lb l := by
  intro l
  cases l with
  | nil => intro _; trivial
  | cons p rest => intro hch; exact ⟨le_trans h hch.1, hch.2⟩

theorem Chained_start {lb : Nat} :
    ∀ {l : List ListPattern}, Chained lb l → ∀ p ∈ l, lb ≤ p.start := by
  intro l
  induction l generalizing lb with
  | nil => intro _ p hp; cases hp
  | cons q rest ih =>
    intro hch p hp
    rcases List.mem_cons.mp hp with rfl | hp
    · exact hch.1
    · have h1 : lb ≤ q.endIdx + 1 := by have := hch.1; have := hch.2.1; omega
      exact le_trans h1 (ih hch.2.2 p hp)

theorem Chained_pairwise {lb : Nat} {l : List ListPattern} (h : Chained lb l) :
    l.Pairwise (fun p q => p.endIdx < q.start) := by
  induction l generalizing lb with
  | nil => exact List.Pairwise.nil
  | cons p rest ih =>
    refine List.Pairwise.cons ?_ (ih h.2.2)
    intro q hq
    have := Chained_start h.2.2 q hq
    omega

theorem semPat_simPattern {nodes cur : List ElementNode} {s : Nat} {sim : SimilarRun}
    (hf : findStructurallySimilar cur = some sim)
    (hsum : s + cur.length ≤ nodes.length)
    (hslice : cur = (nodes.drop s).take cur.length) :
    SemPat nodes (semanticSimPattern s sim) ∧ s ≤ (semanticSimPattern s sim).start ∧
      (semanticSimPattern s sim).endIdx + 1 ≤ s + cur.length := by
  obtain ⟨hb1, hb2, hitems, hcount, hsample⟩ := findStructurallySimilar_bounds hf
  have harith : s + sim.endIdx + 1 - (s + sim.start) = sim.endIdx + 1 - sim.start := by omega
  have hitems2 : sim.items = (nodes.drop (s + sim.start)).take (sim.endIdx + 1 - sim.start) := by
    rw [hitems]
    exact slice_comp cur hslice (by omega)
  refine ⟨⟨rfl, ?_, ?_, ?_, ?_, ?_, ?_⟩, ?_, ?_⟩
  · dsimp [semanticSimPattern]; omega
  · dsimp [semanticSimPattern]; omega
  · dsimp [semanticSimPattern]
    rw [harith, hitems2]
  · dsimp [semanticSimPattern]; omega
  · dsimp [semanticSimPattern]
    rw [hitems2, slice_length (by omega)]
    omega
  · dsimp [semanticSimPattern]
    rw [hsample, hitems]
    exact getD_slice_head (by omega) (by omega)
  · dsimp [semanticSimPattern]; omega
  · dsimp [semanticSimPattern]; omega

theorem semPat_wholePattern {nodes cur : List ElementNode} {s : Nat}
    (h3 : 3 ≤ cur.length)
    (hsum : s + cur.length ≤ nodes.length)
    (hslice : cur = (nodes.drop s).take cur.length) :
    SemPat nodes (semanticWholePattern cur s) ∧ s ≤ (semanticWholePattern cur s).start ∧
      (semanticWholePattern cur s).endIdx + 1 ≤ s + cur.length := by
  have harith : s + cur.length - 1 + 1 - s = cur.length := by omega
  refine ⟨⟨rfl, ?_, ?_, ?_, ?_, ?_, ?_⟩, ?_, ?_⟩
  · dsimp [semanticWholePattern]; omega
  · dsimp [semanticWholePattern]; omega
  · dsimp [semanticWholePattern]
    rw [harith, ← hslice]
  · dsimp [semanticWholePattern]; omega
  · dsimp [semanticWholePattern]; omega
  · dsimp [semanticWholePattern]
    exact getD_mem_of_lt (by omega)
  · dsimp [semanticWholePattern]; omega
  · dsimp [semanticWholePattern]; omega

theorem semanticEmit_spec {nodes cur : List ElementNode} {s : Nat}
    (h3 : 3 ≤ cur.length)
    (hsum : s + cur.length ≤ nodes.length)
    (hslice : cur = (nodes.drop s).take cur.length) :
    ∀ p ∈ semanticEmit cur s,
      SemPat nodes p ∧ s ≤ p.start ∧ p.endIdx + 1 ≤ s + cur.length := by
  intro p hp
  unfold semanticEmit at hp
  cases hf : findStructurallySimilar cur with
  | none =>
    rw [hf] at hp
    rcases List.mem_singleton.mp hp with rfl
    exact semPat_wholePattern h3 hsum hslice
  | some sim =>
    rw [hf] at hp
    rcases List.mem_singleton.mp hp with rfl
    exact semPat_simPattern hf hsum hslice

theorem dslLoop_spec (nodes : List ElementNode) :
    ∀ (rem : List ElementNode) (i : Nat) (cur : List ElementNode) (s lb : Nat),
      rem = nodes.drop i →
      (cur = [] → lb = i) →
      (cur ≠ [] → lb = s ∧ s + cur.length = i ∧ cur = (nodes.drop s).take cur.length) →
      Chained lb (dslLoop rem i cur s) ∧ ∀ p ∈ dslLoop rem i cur s, SemPat nodes p := by
  intro rem
  induction rem with
  | nil =>
    intro i cur s lb hrem hemp hne
    rw [dslLoop]
    by_cases h3 : 3 ≤ cur.length
    · rw [if_pos h3]
      have hcur : cur ≠ [] := by
        intro h
        rw [h] at h3
        simp at h3
      obtain ⟨hlb, hsum, hslice⟩ := hne hcur
      have hilen : i ≤ nodes.length := by
        have h4 := take_self_length_le hslice
        simp only [List.length_drop] at h4
        omega
      cases hf : findStructurallySimilar cur with
      | none =>
        exact ⟨trivial, fun p hp => absurd hp (List.not_mem_nil p)⟩
      | some sim =>
        obtain ⟨hsp, hlo, hhi⟩ := semPat_simPattern hf (by omega) hslice
        refine ⟨⟨by omega, hsp.2.1, trivial⟩, ?_⟩
        intro p hp
        rcases List.mem_singleton.mp hp with rfl
        exact hsp
    · rw [if_neg h3]
      exact ⟨trivial, fun p hp => absurd hp (List.not_mem_nil p)⟩
  | cons node rest ih =>
    intro i cur s lb hrem hemp hne
    have hrest : rest = nodes.drop (i + 1) := by
      have h1 : (nodes.drop i).tail = nodes.drop (i + 1) := by
        rw [← List.drop_one, List.drop_drop, Nat.add_comm]
      rw [← h1, ← hrem]
      rfl
    have hnode : nodes[i]? = some node := by
      rw [← List.head?_drop, ← hrem]
      rfl
    rw [dslLoop]
    by_cases hli : node.type = "listitem"
    · rw [if_pos hli]
      have hs' : ∀ _h : ¬cur ++ [node] = [],
          (if cur.isEmpty then i else s) = (if cur.isEmpty then i else s) ∧
          (if cur.isEmpty then i else s) + (cur ++ [node]).length = i + 1 ∧
          cur ++ [node] = (nodes.drop (if cur.isEmpty then i else s)).take
            (cur ++ [node]).length := by
        intro _
        refine ⟨rfl, ?_, ?_⟩
        · by_cases hce : cur = []
          · subst hce; simp
          · obtain ⟨hlb, hsum, hslice⟩ := hne hce
            have hcne : cur.isEmpty = false := by
              cases cur with
              | nil => exact absurd rfl hce
              | cons a t => rfl
            simp only [hcne, Bool.false_eq_true, if_false, List.length_append,
              List.length_singleton]
            omega
        · by_cases hce : cur = []
          · subst hce
            simp only [List.isEmpty_nil, if_true, List.nil_append, List.length_singleton]
            rw [← hrem]
            rfl
          · obtain ⟨hlb, hsum, hslice⟩ := hne hce
            have hcne : cur.isEmpty = false := by
              cases cur with
              | nil => exact absurd rfl hce
              | cons a t => rfl
            simp only [hcne, Bool.false_eq_true, if_false, List.length_append,
              List.length_singleton]
            rw [List.take_succ, ← hslice]
            congr 1
            rw [List.getElem?_drop]
            have hsi : s + cur.length = i := hsum
            rw [hsi, hnode]
            rfl
      have hres := ih (i + 1) (cur ++ [node]) (if cur.isEmpty then i else s)
        (if cur.isEmpty then i else s) hrest
        (by intro h; exact absurd h (by simp)) hs'
      have hlbeq : lb = (if cur.isEmpty then i else s) := by
        by_cases hce : cur = []
        · subst hce
          simp only [List.isEmpty_nil, if_true]
          exact hemp rfl
        · have hcne : cur.isEmpty = false := by
            cases cur with
            | nil => exact absurd rfl hce
            | cons a t => rfl
          simp only [hcne, Bool.false_eq_true, if_false]
          exact (hne hce).1
      rw [hlbeq]
      exact hres
    · rw [if_neg hli]
      have htail := ih (i + 1) [] 0 (i + 1) hrest (fun _ => rfl)
        (fun h => absurd rfl h)
      have hlb_le : lb ≤ i := by
        by_cases hce : cur = []
        · rw [hemp hce]
        · obtain ⟨hlb, hsum, hslice⟩ := hne hce
          omega
      by_cases h3 : 3 ≤ cur.length
      · rw [if_pos h3]
        have hcur : cur ≠ [] := by
          intro h
          rw [h] at h3
          simp at h3
        obtain ⟨hlb, hsum, hslice⟩ := hne hcur
        have hilen : i ≤ nodes.length := by
          have h4 := take_self_length_le hslice
          simp only [List.length_drop] at h4
          omega
        have hespec := @semanticEmit_spec nodes _ _ h3 (by omega) hslice
        obtain ⟨pat, hpat⟩ :
            ∃ p, semanticEmit cur s = [p] := by
          unfold semanticEmit
          cases findStructurallySimilar cur with
          | none => exact ⟨_, rfl⟩
          | some sim => exact ⟨_, rfl⟩
        rw [hpat]
        rw [hpat] at hespec
        obtain ⟨hsp, hlo, hhi⟩ := hespec pat (List.mem_singleton_self pat)
        refine ⟨⟨by omega, hsp.2.1, ?_⟩, ?_⟩
        · exact Chained_mono (by omega) htail.1
        · intro p hp
          rcases List.mem_cons.mp hp with rfl | hp
          · exact hsp
          · exact htail.2 p hp
      · rw [if_neg h3]
        simp only [List.nil_append]
        exact ⟨Chained_mono (by omega) htail.1, htail.2⟩

theorem detectSemanticLists_spec (nodes : List ElementNode) :
    Chained 0 (detectSemanticLists nodes) ∧
      ∀ p ∈ detectSemanticLists nodes, SemPat nodes p :=
  dslLoop_spec nodes nodes 0 [] 0 0 rfl (fun _ => rfl) (fun h => absurd rfl h)

/-- Well-formedness of the `indentGroups` accumulator: every entry is an
`(index, node)` pair of the sibling list whose index is not covered by a
semantic pattern, and each group's indices are strictly increasing. -/
def GOK (nodes : List ElementNode) (sem : List ListPattern)
    (groups : List (Nat × List (Nat × ElementNode))) : Prop :=
  ∀ g ∈ groups, (∀ e ∈ g.2, e ∈ nodes.enum ∧ inSemanticRange sem e.1 = false) ∧
    (g.2.map Prod.fst).Pairwise (· < ·)

theorem upsert_GOK {nodes : List ElementNode} {sem : List ListPattern}
    {entry : Nat × ElementNode} (ind : Nat) :
    ∀ {groups : List (Nat × List (Nat × ElementNode))},
      GOK nodes sem groups →
      (∀ g ∈ groups, ∀ e ∈ g.2, e.1 < entry.1) →
      entry ∈ nodes.enum → inSemanticRange sem entry.1 = false →
      GOK nodes sem (upsert groups ind entry) ∧
        (∀ g ∈ upsert groups ind entry, ∀ e ∈ g.2, e.1 ≤ entry.1 ∨
          ∃ g0 ∈ groups, e ∈ g0.2) := by
  intro groups
  induction groups with
  | nil =>
    intro _ _ hentry hsem
    refine ⟨?_, ?_⟩
    · intro g hg
      rcases List.mem_singleton.mp hg with rfl
      exact ⟨fun e he => by rcases List.mem_singleton.mp he with rfl; exact ⟨hentry, hsem⟩,
        by simp⟩
    · intro g hg e he
      rcases List.mem_singleton.mp hg with rfl
      rcases List.mem_singleton.mp he with rfl
      exact Or.inl (le_refl _)
  | cons g0 rest ih =>
    intro hok hbnd hentry hsem
    rw [upsert]
    by_cases hk : g0.1 = ind
    · rw [if_pos hk]
      constructor
      · intro g hg
        rcases List.mem_cons.mp hg with rfl | hg
        · constructor
          · intro e he
            rcases List.mem_append.mp he with he | he
            · exact (hok g0 (List.mem_cons_self _ _)).1 e he
            · rcases List.mem_singleton.mp he with rfl
              exact ⟨hentry, hsem⟩
          · rw [List.map_append]
            rw [List.pairwise_append]
            refine ⟨(hok g0 (List.mem_cons_self _ _)).2, by simp, ?_⟩
            intro a ha b hb
            simp only [List.map_singleton, List.mem_singleton] at hb
            subst hb
            obtain ⟨e, he, rfl⟩ := List.mem_map.mp ha
            exact hbnd g0 (List.mem_cons_self _ _) e he
        · exact hok g (List.mem_cons_of_mem _ hg)
      · intro g hg e he
        rcases List.mem_cons.mp hg with rfl | hg
        · rcases List.mem_append.mp he with he | he
          · exact Or.inr ⟨g0, List.mem_cons_self _ _, he⟩
          · rcases List.mem_singleton.mp he with rfl
            exact Or.inl (le_refl _)
        · exact Or.inr ⟨g, List.mem_cons_of_mem _ hg, he⟩
    · rw [if_neg hk]
      have hok' : GOK nodes sem rest := fun g hg => hok g (List.mem_cons_of_mem _ hg)
      have hbnd' : ∀ g ∈ rest, ∀ e ∈ g.2, e.1 < entry.1 :=
        fun g hg => hbnd g (List.mem_cons_of_mem _ hg)
      obtain ⟨ih1, ih2⟩ := ih hok' hbnd' hentry hsem
      constructor
      · intro g hg
        rcases List.mem_cons.mp hg with rfl | hg
        · exact hok g0 (List.mem_cons_self _ _)
        · exact ih1 g hg
      · intro g hg e he
        rcases List.mem_cons.mp hg with rfl | hg
        · exact Or.inr ⟨g0, List.mem_cons_self _ _, he⟩
        · rcases ih2 g hg e he with h | ⟨g1, hg1, he1⟩
          · exact Or.inl h
          · exact Or.inr ⟨g1, List.mem_cons_of_mem _ hg1, he1⟩

theorem buildIndentGroups_foldl (nodes : List ElementNode) (sem : List ListPattern) :
    ∀ (es : List (Nat × ElementNode)) (groups : List (Nat × List (Nat × ElementNode))),
      GOK nodes sem groups →
      (∀ e ∈ es, e ∈ nodes.enum) →
      (∀ g ∈ groups, ∀ e' ∈ g.2, ∀ e ∈ es, e'.1 < e.1) →
      (es.map Prod.fst).Pairwise (· < ·) →
      GOK nodes sem (es.foldl
        (fun groups p =>
          if inSemanticRange sem p.1 then groups else upsert groups p.2.indent p)
        groups) := by
  intro es
  induction es with
  | nil => intro groups hok _ _ _; exact hok
  | cons e es' ih =>
    intro groups hok hmem hbnd hpw
    rw [List.foldl_cons]
    have hpw' : (es'.map Prod.fst).Pairwise (· < ·) := by
      rw [List.map_cons] at hpw
      exact hpw.tail
    have hlt : ∀ e' ∈ es', e.1 < e'.1 := by
      rw [List.map_cons] at hpw
      intro e' he'
      exact List.rel_of_pairwise_cons hpw (List.mem_map_of_mem Prod.fst he')
    by_cases hsem : inSemanticRange sem e.1
    · rw [if_pos hsem]
      refine ih groups hok (fun x hx => hmem x (List.mem_cons_of_mem _ hx)) ?_ hpw'
      intro g hg e' he' x hx
      exact hbnd g hg e' he' x (List.mem_cons_of_mem _ hx)
    · rw [if_neg hsem]
      obtain ⟨h1, h2⟩ := @upsert_GOK nodes sem e e.2.indent groups hok
        (fun g hg e' he' => hbnd g hg e' he' e (List.mem_cons_self _ _))
        (hmem e (List.mem_cons_self _ _)) (by simpa using hsem)
      refine ih _ h1 (fun x hx => hmem x (List.mem_cons_of_mem _ hx)) ?_ hpw'
      intro g hg e' he' x hx
      rcases h2 g hg e' he' with hle | ⟨g0, hg0, he0⟩
      · exact lt_of_le_of_lt hle (hlt x hx)
      · exact hbnd g0 hg0 e' he0 x (List.mem_cons_of_mem _ hx)

theorem buildIndentGroups_facts (nodes : List ElementNode) (sem : List ListPattern) :
    GOK nodes sem (buildIndentGroups nodes sem) := by
  apply buildIndentGroups_foldl nodes sem nodes.enum []
  · intro g hg; cases hg
  · intro e he; exact he
  · intro g hg; cases hg
  · rw [List.enum_map_fst]
    exact List.pairwise_lt_range _

/-- Shape of a structural pattern: at least 3 items and a count of at least
3, and all its items (and its sample) are siblings at positions not covered
by any semantic pattern. -/
def StructPat (nodes : List ElementNode) (sem : List ListPattern) (q : ListPattern) : Prop :=
  q.type = .structural ∧ 3 ≤ q.count ∧ 3 ≤ q.items.length ∧
    (∀ x ∈ q.items, ∃ j, (j, x) ∈ nodes.enum ∧ inSemanticRange sem j = false) ∧
    ∃ j, (j, q.sample) ∈ nodes.enum ∧ inSemanticRange sem j = false

theorem jsSlice_nat {α : Type} (l : List α) (a b : Nat) (ha : a ≤ l.length)
    (hb : b ≤ l.length) :
    jsSlice l (a : Int) (b : Int) = (l.take b).drop a := by
  simp only [jsSlice]
  rw [if_neg (by omega), if_neg (by omega)]
  have e1 : (min (a : Int) (l.length : Int)).toNat = a := by omega
  have e2 : (min (b : Int) (l.length : Int)).toNat = b := by omega
  rw [e1, e2]

theorem detectStructuralLists_spec (nodes : List ElementNode) (sem : List ListPattern) :
    ∀ q ∈ detectStructuralLists nodes sem, StructPat nodes sem q := by
  intro q hq
  unfold detectStructuralLists at hq
  rw [List.mem_flatMap] at hq
  obtain ⟨g, hg, hq⟩ := hq
  obtain ⟨hgentries, hgpw⟩ := buildIndentGroups_facts nodes sem g hg
  by_cases hglen : g.2.length < 3
  · rw [if_pos hglen] at hq
    cases hq
  · rw [if_neg hglen] at hq
    rw [List.mem_map] at hq
    obtain ⟨sq, hsq, rfl⟩ := hq
    -- facts about the found sequence
    have henum_pw : (((g.2.map Prod.snd).enum).map Prod.fst).Pairwise (· < ·) := by
      rw [List.enum_map_fst]
      exact List.pairwise_lt_range _
    have henum_bnd : ∀ p ∈ (g.2.map Prod.snd).enum, p.1 < g.2.length := by
      intro p hp
      have := List.fst_lt_of_mem_enum hp
      simpa using this
    unfold DOMSimHash.findAllSimilarSequences at hsq
    have hfacts := DOMSimHash.fassLoop_facts g.2.length (g.2.map Prod.snd).length
      ((g.2.map Prod.snd).enum) henum_pw henum_bnd sq hsq
    obtain ⟨h1, h2, h3, h4⟩ := hfacts
    -- the slice of the group underlying the items
    have hslice : jsSlice g.2 (sq.start : Int) ((sq.endIdx : Int) + 1) =
        (g.2.take (sq.endIdx + 1)).drop sq.start := by
      have hs := jsSlice_nat g.2 sq.start (sq.endIdx + 1) (by omega) (by omega)
      rw [Nat.cast_add, Nat.cast_one] at hs
      exact hs
    have hslice_sub : ∀ e ∈ (g.2.take (sq.endIdx + 1)).drop sq.start, e ∈ g.2 :=
      fun e he => (List.take_subset _ _) ((List.drop_subset _ _) he)
    have hslice_len : ((g.2.take (sq.endIdx + 1)).drop sq.start).length =
        sq.endIdx + 1 - sq.start := by
      simp only [List.length_drop, List.length_take]
      omega
    refine ⟨rfl, h3, ?_, ?_, ?_⟩
    · dsimp only
      rw [hslice, List.length_map, hslice_len]
      omega
    · dsimp only
      intro x hx
      rw [hslice] at hx
      rw [List.mem_map] at hx
      obtain ⟨e, he, rfl⟩ := hx
      obtain ⟨hee, hes⟩ := hgentries e (hslice_sub e he)
      exact ⟨e.1, by simpa using hee, hes⟩
    · dsimp only
      -- the sample is the node of the group entry at position sq.start
      have hmem : ((sq.start, sq.sample) : Nat × ElementNode) ∈ (g.2.map Prod.snd).enum := h4
      have hget : (g.2.map Prod.snd).get? sq.start = some sq.sample :=
        List.mk_mem_enum_iff_get?.mp hmem
      have hlt : sq.start < g.2.length := by omega
      have hget2 : (g.2.map Prod.snd).get? sq.start =
          some ((g.2.get ⟨sq.start, hlt⟩).2) := by
        rw [List.get?_eq_get (by simpa using hlt)]
        simp [List.get_eq_getElem]
      rw [hget2] at hget
      have hsample : sq.sample = (g.2.get ⟨sq.start, hlt⟩).2 := by
        injection hget.symm
      obtain ⟨hee, hes⟩ := hgentries _ (List.get_mem g.2 sq.start hlt)
      refine ⟨(g.2.get ⟨sq.start, hlt⟩).1, ?_, hes⟩
      rw [hsample]
      simpa using hee

theorem detectLists_facts (nodes : List ElementNode) :
    ∀ p ∈ detectLists nodes,
      (p ∈ detectSemanticLists nodes ∧ SemPat nodes p) ∨
        StructPat nodes (detectSemanticLists nodes) p := by
  intro p hp
  unfold detectLists at hp
  rw [(sortByStart_perm _).mem_iff] at hp
  rcases List.mem_append.mp hp with h | h
  · exact Or.inl ⟨h, (detectSemanticLists_spec nodes).2 p h⟩
  · exact Or.inr (detectStructuralLists_spec nodes _ p h)

theorem detectLists_count3 (nodes : List ElementNode) :
    ∀ p ∈ detectLists nodes, 3 ≤ p.count ∧ 3 ≤ p.items.length := by
  intro p hp
  rcases detectLists_facts nodes p hp with ⟨_, h⟩ | h
  · exact ⟨h.2.2.2.2.1, h.2.2.2.2.2.1⟩
  · exact ⟨h.2.1, h.2.2.1⟩

theorem enum_mem_get {nodes : List ElementNode} {j : Nat} {x : ElementNode}
    (h : (j, x) ∈ nodes.enum) :
    ∃ hj : j < nodes.length, x = nodes.get ⟨j, hj⟩ := by
  have h1 : nodes.get? j = some x := List.mk_mem_enum_iff_get?.mp h
  obtain ⟨hj, hx⟩ := List.get?_eq_some.mp h1
  exact ⟨hj, hx.symm⟩

theorem detectLists_sample_mem {nodes : List ElementNode} {p : ListPattern}
    (hp : p ∈ detectLists nodes) : p.sample ∈ nodes := by
  rcases detectLists_facts nodes p hp with ⟨_, h⟩ | h
  · have hx := h.2.2.2.2.2.2
    rw [h.2.2.2.1] at hx
    exact (List.drop_subset _ _) ((List.take_subset _ _) hx)
  · obtain ⟨j, hj, _⟩ := h.2.2.2.2
    obtain ⟨hjlt, hx⟩ := enum_mem_get hj
    rw [hx]
    exact List.get_mem _ _ _

theorem semPat_items_index {nodes : List ElementNode} {p : ListPattern}
    (h : SemPat nodes p) :
    ∀ x ∈ p.items, ∃ r, p.start ≤ r ∧ r ≤ p.endIdx ∧
      ∃ hr : r < nodes.length, x = nodes.get ⟨r, hr⟩ := by
  intro x hx
  rw [h.2.2.2.1] at hx
  obtain ⟨r, hr1, hr2, hr, hxr⟩ := mem_slice_index hx
  have hb := h.2.1
  exact ⟨r, hr1, by omega, hr, hxr⟩

theorem inSemanticRange_of_mem {sem : List ListPattern} {p : ListPattern}
    (hp : p ∈ sem) {r : Nat} (h1 : p.start ≤ r) (h2 : r ≤ p.endIdx) :
    inSemanticRange sem r = true := by
  unfold inSemanticRange
  rw [List.any_eq_true]
  refine ⟨p, hp, ?_⟩
  simp [h1, h2]

/-- Core of the corrected non-overlap property: a pattern of the semantic
pass never shares an item with any other returned pattern (assuming the
sibling nodes are pairwise distinct, which models JS object identity). -/
theorem detectLists_semantic_nonoverlap_core (nodes : List ElementNode)
    (hnd : nodes.Nodup) :
    ∀ p ∈ detectLists nodes, ∀ q ∈ detectLists nodes,
      p.type = .semantic → p ≠ q → ∀ x ∈ p.items, x ∉ q.items := by
  intro p hp q hq htype hne x hxp hxq
  rcases detectLists_facts nodes p hp with ⟨hpsem, hP⟩ | hP
  swap
  · rw [hP.1] at htype; cases htype
  obtain ⟨r, hr1, hr2, hrlt, hxr⟩ := semPat_items_index hP x hxp
  rcases detectLists_facts nodes q hq with ⟨hqsem, hQ⟩ | hQ
  · -- q semantic: ranges of distinct semantic patterns are disjoint
    obtain ⟨r2, hs1, hs2, hrlt2, hxr2⟩ := semPat_items_index hQ x hxq
    have hget : nodes.get ⟨r, hrlt⟩ = nodes.get ⟨r2, hrlt2⟩ := by
      rw [← hxr, ← hxr2]
    have hrr : r = r2 := congrArg Fin.val ((List.Nodup.get_inj_iff hnd).mp hget)
    have hpair := Chained_pairwise (detectSemanticLists_spec nodes).1
    have hpair2 : (detectSemanticLists nodes).Pairwise
        (fun a b => a.endIdx < b.start ∨ b.endIdx < a.start) :=
      hpair.imp (fun h => Or.inl h)
    have hsym : Symmetric (fun a b : ListPattern => a.endIdx < b.start ∨ b.endIdx < a.start) := by
      intro a b h
      rcases h with h | h
      · exact Or.inr h
      · exact Or.inl h
    have hdisj := hpair2.forall hsym hpsem hqsem hne
    rcases hdisj with h | h <;> omega
  · -- q structural: its items avoid all semantic ranges
    obtain ⟨j, hj, hjf⟩ := hQ.2.2.2.1 x hxq
    obtain ⟨hjlt, hxj⟩ := enum_mem_get hj
    have hget : nodes.get ⟨j, hjlt⟩ = nodes.get ⟨r, hrlt⟩ := by
      rw [← hxr, ← hxj]
    have hjr : j = r := congrArg Fin.val ((List.Nodup.get_inj_iff hnd).mp hget)
    have htrue := inSemanticRange_of_mem hpsem hr1 hr2
    rw [hjr] at hjf
    rw [htrue] at hjf
    cases hjf

end ListDetector

/-! ## UselessWrapperRemover (src/utils/remove-useless-wrappers.ts)

The mutually recursive functions are defined carrying a size bound in a
subtype, which is what makes the nested recursion (`processNode` re-runs
`removeWrappers` on the children of the node it collapses into) well
founded; the plain functions `removeWrappers`, `processNode`, `collapseLoop`
below project the value out. -/

namespace UselessWrapperRemover

/-- `isEmptyGeneric`: a `generic` with no children and no content (JS
falsiness of a string is emptiness).  Note it does not look at `ref`. -/
def isEmptyGeneric (node : ElementNode) : Bool :=
  node.type == "generic" && node.children.isEmpty && node.content == ""

/-- `isUselessWrapper`: a `generic` with exactly one child. -/
def isUselessWrapper (node : ElementNode) : Bool :=
  node.type == "generic" && node.children.length == 1

/-- `mergeAttributes`: the child inherits the parent's indent, and the
parent's content when the child has none.  (The `parent` back-reference
handover is not modelled: the tree is functional.) -/
def mergeAttributes (parent child : ElementNode) : ElementNode :=
  { child with
    indent := parent.indent
    content := if parent.content ≠ "" && child.content == "" then parent.content
               else child.content }

/-- `removeEmptyGenerics`: bottom-up removal of empty `generic` nodes.  (The
source guards the recursive child rewrite with `children.length > 0`; since
the recursion maps `[]` to `[]` the guard is a no-op and is dropped here.) -/
def removeEmptyGenerics : List ElementNode → List ElementNode
  | [] => []
  | n :: rest =>
    let n' := { n with children := removeEmptyGenerics n.children }
    if isEmptyGeneric n' then removeEmptyGenerics rest
    else n' :: removeEmptyGenerics rest
termination_by l => lsize l
decreasing_by
  all_goals simp [lsize_cons, nsize_eq n] <;> (try have := nsize_pos n) <;> omega

theorem lsize_removeEmptyGenerics_le (l : List ElementNode) :
    lsize (removeEmptyGenerics l) ≤ lsize l := by
  induction l using removeEmptyGenerics.induct with
  | case1 => simp [removeEmptyGenerics]
  | case2 n rest n' hemp ihc ihr =>
    rw [removeEmptyGenerics]
    simp only [hemp, if_true, lsize_cons]
    have := nsize_pos n
    omega
  | case3 n rest n' hemp ihc ihr =>
    rw [removeEmptyGenerics]
    simp only [hemp, Bool.false_eq_true, if_false, lsize_cons]
    have hn := nsize_eq ({ n with children := removeEmptyGenerics n.children })
    simp only at hn
    rw [hn]
    have := nsize_eq n
    omega

theorem nsize_update_le (m : ElementNode) (v : List ElementNode)
    (h : lsize v ≤ lsize m.children) : nsize { m with children := v } ≤ nsize m := by
  have e1 : nsize { m with children := v } = 1 + lsize v := nsize_eq _
  have e2 := nsize_eq m
  omega

/-- `node.children = removeWrappers(node.children)`: replace the children of
`m` by an already-bounded value. -/
def withChildren (m : ElementNode) (v : { r : List ElementNode // lsize r ≤ lsize m.children }) :
    ElementNode := { m with children := v.val }

theorem nsize_withChildren (m : ElementNode)
    (v : { r : List ElementNode // lsize r ≤ lsize m.children }) :
    nsize (withChildren m v) ≤ nsize m :=
  nsize_update_le m v.val v.property

theorem nsize_mergeAttributes (p c : ElementNode) :
    nsize (mergeAttributes p c) = nsize c := by
  have e1 : nsize (mergeAttributes p c) = 1 + lsize c.children := nsize_eq _
  rw [e1, nsize_eq c]

theorem nsize_child_lt (node c : ElementNode) (hc : node.children = [c]) :
    nsize c < nsize node :=
  nsize_lt_of_mem_children (by rw [hc]; exact List.mem_singleton_self c)

mutual

/-- `removeWrappers`, value plus size bound. -/
def removeWrappersS (l : List ElementNode) :
    { r : List ElementNode // lsize r ≤ lsize l } :=
  let l1 := removeEmptyGenerics l
  have h1 : lsize l1 ≤ lsize l := lsize_removeEmptyGenerics_le l
  let r := mapProcessS l1
  ⟨r.val, le_trans r.property h1⟩
termination_by 4 * lsize l + 3
decreasing_by have := lsize_removeEmptyGenerics_le l; omega

/-- `nodes.map(node => this.processNode(node))`, value plus size bound. -/
def mapProcessS : (l : List ElementNode) → { r : List ElementNode // lsize r ≤ lsize l }
  | [] => ⟨[], Nat.le_refl _⟩
  | n :: rest =>
    let n' := processNodeS n
    let r := mapProcessS rest
    ⟨n'.val :: r.val, by
      have h1 := n'.property
      have h2 := r.property
      simp only [lsize_cons]
      omega⟩
termination_by l => 4 * lsize l + 2
decreasing_by
  · simp only [lsize_cons]; omega
  · simp only [lsize_cons]; have := nsize_pos n; omega

/-- `processNode`, value plus size bound. -/
def processNodeS (n : ElementNode) : { m : ElementNode // nsize m ≤ nsize n } :=
  let c := removeWrappersS n.children
  let n' := withChildren n c
  have hn' : nsize n' ≤ nsize n := nsize_withChildren n c
  let m := collapseLoopS n'
  ⟨m.val, le_trans m.property hn'⟩
termination_by 4 * nsize n + 1
decreasing_by
  · have := nsize_eq n; omega
  · exact Nat.lt_succ_of_le
      (Nat.mul_le_mul (Nat.le_refl 4) (nsize_withChildren n _))

/-- The `while (isUselessWrapper(node))` loop of `processNode`: collapse a
single-child `generic` into its child, re-running `removeWrappers` on the
child's children each time (the source guards that re-run with
`children.length > 0`, a no-op dropped here). -/
def collapseLoopS (node : ElementNode) : { m : ElementNode // nsize m ≤ nsize node } :=
  match hc : node.children with
  | [onlyChild] =>
    if node.type = "generic" then
      let c1 := mergeAttributes node onlyChild
      have hsz : 4 * lsize onlyChild.children + 3 < 4 * nsize node := by
        have e1 := nsize_eq node
        have e3 : lsize node.children = nsize onlyChild + 0 := by rw [hc]; rfl
        have e4 := nsize_eq onlyChild
        omega
      let rw := removeWrappersS c1.children
      let c2 := withChildren c1 rw
      have h2 : nsize c2 < nsize node :=
        lt_of_le_of_lt (nsize_withChildren c1 rw)
          (by rw [nsize_mergeAttributes]; exact nsize_child_lt node onlyChild hc)
      let m := collapseLoopS c2
      ⟨m.val, le_trans m.property (Nat.le_of_lt h2)⟩
    else ⟨node, Nat.le_refl _⟩
  | _ => ⟨node, Nat.le_refl _⟩
termination_by 4 * nsize node
decreasing_by
  · exact hsz
  · refine lt_of_le_of_lt
      (Nat.mul_le_mul (Nat.le_refl 4)
        (nsize_withChildren (mergeAttributes node onlyChild) _)) ?_
    rw [nsize_mergeAttributes]
    have := nsize_child_lt node onlyChild hc
    omega

end

/-- `removeWrappers`, the public entry point. -/
def removeWrappers (l : List ElementNode) : List ElementNode := (removeWrappersS l).val

/-- `processNode`. -/
def processNode (n : ElementNode) : ElementNode := (processNodeS n).val

/-- The `while (isUselessWrapper(node))` loop of `processNode`. -/
def collapseLoop (node : ElementNode) : ElementNode := (collapseLoopS node).val

theorem lsize_removeWrappers_le (l : List ElementNode) :
    lsize (removeWrappers l) ≤ lsize l := (removeWrappersS l).property

theorem mapProcessS_val : ∀ l : List ElementNode, (mapProcessS l).val = l.map processNode := by
  intro l
  induction l with
  | nil => rw [mapProcessS]; rfl
  | cons n rest ih =>
    rw [mapProcessS]
    simp only [List.map_cons]
    rw [ih]
    rfl

theorem removeWrappers_def (l : List ElementNode) :
    removeWrappers l = (removeEmptyGenerics l).map processNode := by
  rw [removeWrappers, removeWrappersS]
  exact mapProcessS_val _

theorem processNode_def (n : ElementNode) :
    processNode n = collapseLoop { n with children := removeWrappers n.children } := by
  rw [processNode, processNodeS]
  rfl

theorem collapseLoop_single (node c : ElementNode) (hc : node.children = [c])
    (ht : node.type = "generic") :
    collapseLoop node =
      collapseLoop { mergeAttributes node c with
        children := removeWrappers (mergeAttributes node c).children } := by
  obtain ⟨i1, t1, r1, c1, l1, n1, h1, p1, v1, g1, ch1⟩ := node
  simp only at hc ht
  subst hc
  subst ht
  rw [collapseLoop, collapseLoopS]
  rfl

theorem collapseLoop_id (node : ElementNode)
    (h : ¬(node.type = "generic" ∧ ∃ c, node.children = [c])) :
    collapseLoop node = node := by
  obtain ⟨i1, t1, r1, c1, l1, n1, h1, p1, v1, g1, ch1⟩ := node
  rw [collapseLoop, collapseLoopS]
  match ch1, h with
  | [], _ => rfl
  | [c], h =>
    have ht : ¬t1 = "generic" := by
      intro hgen
      exact h ⟨hgen, c, rfl⟩
    simp only [if_neg ht]
  | c1 :: c2 :: rest, _ => rfl

/-- The per-node part of the normal form left by the wrapper remover. -/
def NodeProp (n : ElementNode) : Prop :=
  isEmptyGeneric n = false ∧ (n.type = "generic" → n.children.length ≠ 1)

/-- The normal form of the wrapper remover: no node anywhere in the forest
is an empty `generic` or a single-child `generic`. -/
def Norm (l : List ElementNode) : Prop :=
  ∀ n ∈ preorderF l, NodeProp n

/-- No empty-generic anywhere in the forest (the state after
`removeEmptyGenerics`). -/
def NoEmpty (l : List ElementNode) : Prop :=
  ∀ n ∈ preorderF l, isEmptyGeneric n = false

theorem node_eta (n : ElementNode) :
    ({ indent := n.indent, type := n.type, ref := n.ref, content := n.content,
       line := n.line, lineNumber := n.lineNumber, hasInteraction := n.hasInteraction,
       priority := n.priority, isRepetitive := n.isRepetitive, groupId := n.groupId,
       children := n.children } : ElementNode) = n := by
  obtain ⟨i1, t1, r1, c1, l1, n1, h1, p1, v1, g1, ch1⟩ := n
  rfl

theorem preorderF_cons (n : ElementNode) (rest : List ElementNode) :
    preorderF (n :: rest) = n :: (preorderF n.children ++ preorderF rest) := by
  obtain ⟨i1, t1, r1, c1, l1, n1, h1, p1, v1, g1, ch1⟩ := n
  rfl

theorem preorderF_append : ∀ l1 l2 : List ElementNode,
    preorderF (l1 ++ l2) = preorderF l1 ++ preorderF l2 := by
  intro l1
  induction l1 with
  | nil => intro l2; simp [preorderF]
  | cons n rest ih =>
    intro l2
    rw [List.cons_append, preorderF_cons, preorderF_cons, ih]
    simp

theorem noEmpty_cons {n : ElementNode} {rest : List ElementNode} :
    NoEmpty (n :: rest) ↔
      (isEmptyGeneric n = false ∧ NoEmpty n.children ∧ NoEmpty rest) := by
  unfold NoEmpty
  rw [preorderF_cons]
  constructor
  · intro h
    exact ⟨h n (List.mem_cons_self _ _),
      fun m hm => h m (List.mem_cons_of_mem _ (List.mem_append_left _ hm)),
      fun m hm => h m (List.mem_cons_of_mem _ (List.mem_append_right _ hm))⟩
  · rintro ⟨h1, h2, h3⟩ m hm
    rcases List.mem_cons.mp hm with rfl | hm
    · exact h1
    · rcases List.mem_append.mp hm with hm | hm
      · exact h2 m hm
      · exact h3 m hm

theorem norm_cons {n : ElementNode} {rest : List ElementNode} :
    Norm (n :: rest) ↔ (NodeProp n ∧ Norm n.children ∧ Norm rest) := by
  unfold Norm
  rw [preorderF_cons]
  constructor
  · intro h
    exact ⟨h n (List.mem_cons_self _ _),
      fun m hm => h m (List.mem_cons_of_mem _ (List.mem_append_left _ hm)),
      fun m hm => h m (List.mem_cons_of_mem _ (List.mem_append_right _ hm))⟩
  · rintro ⟨h1, h2, h3⟩ m hm
    rcases List.mem_cons.mp hm with rfl | hm
    · exact h1
    · rcases List.mem_append.mp hm with hm | hm
      · exact h2 m hm
      · exact h3 m hm

theorem removeEmptyGenerics_noEmpty (l : List ElementNode) :
    NoEmpty (removeEmptyGenerics l) := by
  induction l using removeEmptyGenerics.induct with
  | case1 =>
    rw [removeEmptyGenerics]
    intro n hn
    simp [preorderF] at hn
  | case2 n rest n' hemp ihc ihr =>
    rw [removeEmptyGenerics]
    simp only [hemp, if_true]
    exact ihr
  | case3 n rest n' hemp ihc ihr =>
    rw [removeEmptyGenerics]
    simp only [hemp, Bool.false_eq_true, if_false]
    rw [noEmpty_cons]
    exact ⟨by simpa using hemp, ihc, ihr⟩

theorem removeEmptyGenerics_of_noEmpty : ∀ l : List ElementNode,
    NoEmpty l → removeEmptyGenerics l = l := by
  intro l
  induction l using removeEmptyGenerics.induct with
  | case1 => intro _; rw [removeEmptyGenerics]
  | case2 n rest n' hemp ihc ihr =>
    intro h
    obtain ⟨h1, h2, h3⟩ := noEmpty_cons.mp h
    have hch : removeEmptyGenerics n.children = n.children := ihc h2
    have hemp2 : isEmptyGeneric n = true := by
      unfold isEmptyGeneric at hemp ⊢
      dsimp only at hemp
      rw [hch] at hemp
      exact hemp
    rw [hemp2] at h1
    cases h1
  | case3 n rest n' hemp ihc ihr =>
    intro h
    obtain ⟨h1, h2, h3⟩ := noEmpty_cons.mp h
    have hch : removeEmptyGenerics n.children = n.children := ihc h2
    rw [removeEmptyGenerics]
    simp only [hemp, Bool.false_eq_true, if_false]
    rw [hch, ihr h3, node_eta]

/-- Per-subtree counterpart of `Norm`. -/
def NormN (n : ElementNode) : Prop := ∀ m ∈ preorderN n, NodeProp m

/-- Per-subtree counterpart of `NoEmpty`. -/
def NoEmptyN (n : ElementNode) : Prop := ∀ m ∈ preorderN n, isEmptyGeneric m = false

theorem preorderN_eq (n : ElementNode) : preorderN n = n :: preorderF n.children := by
  obtain ⟨i1, t1, r1, c1, l1, n1, h1, p1, v1, g1, ch1⟩ := n
  rfl

theorem normN_iff {n : ElementNode} : NormN n ↔ NodeProp n ∧ Norm n.children := by
  unfold NormN Norm
  rw [preorderN_eq]
  constructor
  · intro h
    exact ⟨h n (List.mem_cons_self _ _), fun m hm => h m (List.mem_cons_of_mem _ hm)⟩
  · rintro ⟨h1, h2⟩ m hm
    rcases List.mem_cons.mp hm with rfl | hm
    · exact h1
    · exact h2 m hm

theorem noEmptyN_iff {n : ElementNode} :
    NoEmptyN n ↔ isEmptyGeneric n = false ∧ NoEmpty n.children := by
  unfold NoEmptyN NoEmpty
  rw [preorderN_eq]
  constructor
  · intro h
    exact ⟨h n (List.mem_cons_self _ _), fun m hm => h m (List.mem_cons_of_mem _ hm)⟩
  · rintro ⟨h1, h2⟩ m hm
    rcases List.mem_cons.mp hm with rfl | hm
    · exact h1
    · exact h2 m hm

theorem normN_cons {n : ElementNode} {rest : List ElementNode} :
    Norm (n :: rest) ↔ NormN n ∧ Norm rest := by
  rw [norm_cons, normN_iff]
  tauto

theorem noEmptyN_cons {n : ElementNode} {rest : List ElementNode} :
    NoEmpty (n :: rest) ↔ NoEmptyN n ∧ NoEmpty rest := by
  rw [noEmpty_cons, noEmptyN_iff]
  tauto

theorem norm_nil : Norm [] := by
  intro m hm
  simp [preorderF] at hm

theorem preorderN_subset_preorderF {n : ElementNode} {l : List ElementNode} (hn : n ∈ l) :
    ∀ m ∈ preorderN n, m ∈ preorderF l := by
  induction l with
  | nil => cases hn
  | cons a rest ih =>
    intro m hm
    rw [preorderF]
    rcases List.mem_cons.mp hn with rfl | hn2
    · exact List.mem_append_left _ hm
    · exact List.mem_append_right _ (ih hn2 m hm)

theorem norm_of_mem {l : List ElementNode} (h : Norm l) {n : ElementNode} (hn : n ∈ l) :
    NormN n :=
  fun m hm => h m (preorderN_subset_preorderF hn m hm)

theorem set_children_eq (n : ElementNode) (v : List ElementNode) (hv : v = n.children) :
    ({ n with children := v } : ElementNode) = n := by
  subst hv
  exact node_eta n

theorem map_id_of_eq {l : List ElementNode} {f : ElementNode → ElementNode}
    (h : ∀ a ∈ l, f a = a) : l.map f = l := by
  induction l with
  | nil => rfl
  | cons a rest ih =>
    rw [List.map_cons, h a (List.mem_cons_self _ _),
      ih (fun b hb => h b (List.mem_cons_of_mem _ hb))]

theorem removeWrappers_norm_aux : ∀ (k : Nat) (l : List ElementNode),
    lsize l < k → Norm l → removeWrappers l = l := by
  intro k
  induction k with
  | zero => intro l h _; exact absurd h (Nat.not_lt_zero _)
  | succ k ih =>
    intro l hlt hnorm
    have hne : NoEmpty l := fun m hm => (hnorm m hm).1
    rw [removeWrappers_def, removeEmptyGenerics_of_noEmpty l hne]
    apply map_id_of_eq
    intro n hn
    have hN := normN_iff.mp (norm_of_mem hnorm hn)
    have hlt2 : lsize n.children < k := by
      have h1 := nsize_le_lsize_of_mem hn
      have h2 := nsize_eq n
      omega
    rw [processNode_def, ih n.children hlt2 hN.2, set_children_eq n n.children rfl]
    refine collapseLoop_id n (fun hx => ?_)
    obtain ⟨hg, c, hcc⟩ := hx
    exact hN.1.2 hg (by rw [hcc]; rfl)

/-- A forest already in normal form is a fixed point of `removeWrappers`. -/
theorem removeWrappers_of_norm (l : List ElementNode) (h : Norm l) :
    removeWrappers l = l :=
  removeWrappers_norm_aux (lsize l + 1) l (Nat.lt_succ_self _) h

theorem removeWrappers_nil : removeWrappers [] = [] := by
  rw [removeWrappers_def, removeEmptyGenerics]
  rfl

theorem mergeAttributes_children (p c : ElementNode) :
    (mergeAttributes p c).children = c.children := rfl

theorem mergeAttributes_type (p c : ElementNode) :
    (mergeAttributes p c).type = c.type := rfl

theorem isEmptyGeneric_of_ne_nil {m : ElementNode} (h : m.children ≠ []) :
    isEmptyGeneric m = false := by
  have he : m.children.isEmpty = false := by
    cases hm : m.children with
    | nil => exact absurd hm h
    | cons a t => rfl
  unfold isEmptyGeneric
  rw [he]
  simp

theorem isEmptyGeneric_mergeAttributes {p c : ElementNode}
    (hc : isEmptyGeneric c = false) : isEmptyGeneric (mergeAttributes p c) = false := by
  cases hcc : c.children with
  | cons a t =>
    apply isEmptyGeneric_of_ne_nil
    rw [mergeAttributes_children, hcc]
    simp
  | nil =>
    obtain ⟨ci, ct, cr, cc, cl, cn, chi, cp, cv, cg, cch⟩ := c
    simp only at hcc
    subst hcc
    simp only [isEmptyGeneric, mergeAttributes, List.isEmpty_nil, Bool.and_true] at hc ⊢
    rcases Bool.and_eq_false_iff.mp hc with hct | hcnt
    · rw [hct]
      simp
    · have hcc2 : ¬cc = "" := by
        intro h2
        rw [h2] at hcnt
        simp at hcnt
      have hif : (if (p.content ≠ "" && (cc == "")) = true then p.content else cc) = cc := by
        have : (cc == "") = false := by
          cases hb : (cc == "") with
          | false => rfl
          | true => exact absurd (by simpa using hb) hcc2
        rw [this]
        simp
      rw [hif]
      have : (cc == "") = false := by
        cases hb : (cc == "") with
        | false => rfl
        | true => exact absurd (by simpa using hb) hcc2
      rw [this]
      simp

theorem collapseLoop_norm_aux : ∀ (k : Nat) (node : ElementNode), nsize node ≤ k →
    Norm node.children → isEmptyGeneric node = false → NormN (collapseLoop node) := by
  intro k
  induction k with
  | zero =>
    intro node h _ _
    exact absurd h (Nat.not_le.mpr (nsize_pos node))
  | succ k ih =>
    intro node hsz hnc hne
    by_cases hgen : node.type = "generic" ∧ ∃ c, node.children = [c]
    · obtain ⟨hg, c, hc⟩ := hgen
      have hcN := normN_iff.mp (norm_of_mem hnc (by rw [hc]; exact List.mem_singleton_self c))
      rw [collapseLoop_single node c hc hg]
      have hrw : removeWrappers (mergeAttributes node c).children =
          (mergeAttributes node c).children := by
        rw [mergeAttributes_children]
        exact removeWrappers_of_norm _ hcN.2
      rw [hrw, set_children_eq _ _ rfl]
      apply ih
      · rw [nsize_mergeAttributes]
        have h1 := nsize_child_lt node c hc
        omega
      · rw [mergeAttributes_children]
        exact hcN.2
      · exact isEmptyGeneric_mergeAttributes hcN.1.1
    · rw [collapseLoop_id node hgen]
      rw [normN_iff]
      refine ⟨⟨hne, ?_⟩, hnc⟩
      intro hg hlen
      apply hgen
      refine ⟨hg, ?_⟩
      cases hcl : node.children with
      | nil => rw [hcl] at hlen; simp at hlen
      | cons a t =>
        cases t with
        | nil => exact ⟨a, rfl⟩
        | cons b t2 => rw [hcl] at hlen; simp at hlen

theorem collapseLoop_norm (node : ElementNode) (h1 : Norm node.children)
    (h2 : isEmptyGeneric node = false) : NormN (collapseLoop node) :=
  collapseLoop_norm_aux (nsize node) node (Nat.le_refl _) h1 h2

theorem processNode_norm_aux : ∀ (k : Nat),
    (∀ n : ElementNode, nsize n ≤ k → NoEmptyN n → NormN (processNode n)) ∧
    (∀ l : List ElementNode, lsize l ≤ k → NoEmpty l → Norm (l.map processNode)) := by
  intro k
  induction k with
  | zero =>
    constructor
    · intro n h _
      exact absurd h (Nat.not_le.mpr (nsize_pos n))
    · intro l h hne
      cases l with
      | nil => exact norm_nil
      | cons a rest =>
        rw [lsize_cons] at h
        have := nsize_pos a
        omega
  | succ k ih =>
    have nodePart : ∀ n : ElementNode, nsize n ≤ k + 1 → NoEmptyN n → NormN (processNode n) := by
      intro n hsz hne
      obtain ⟨hne1, hne2⟩ := noEmptyN_iff.mp hne
      have hrd : removeWrappers n.children = n.children.map processNode := by
        rw [removeWrappers_def, removeEmptyGenerics_of_noEmpty _ hne2]
      have hlsz : lsize n.children ≤ k := by
        have := nsize_eq n
        omega
      have hmapNorm : Norm (n.children.map processNode) := ih.2 n.children hlsz hne2
      rw [processNode_def, hrd]
      apply collapseLoop_norm
      · exact hmapNorm
      · cases hch : n.children with
        | nil =>
          simp only [List.map_nil]
          rw [set_children_eq n [] hch.symm]
          exact hne1
        | cons a t =>
          apply isEmptyGeneric_of_ne_nil
          simp
    refine ⟨nodePart, ?_⟩
    intro l
    induction l with
    | nil => intro _ _; exact norm_nil
    | cons a rest ihl =>
      intro hsz hne
      rw [List.map_cons, normN_cons]
      obtain ⟨ha, hrest⟩ := noEmptyN_cons.mp hne
      rw [lsize_cons] at hsz
      have hpa := nsize_pos a
      constructor
      · exact nodePart a (by omega) ha
      · exact ihl (by omega) hrest

/-- The output of `removeWrappers` is in normal form: no empty `generic`,
no single-child `generic`, anywhere. -/
theorem removeWrappers_norm (l : List ElementNode) : Norm (removeWrappers l) := by
  rw [removeWrappers_def]
  exact (processNode_norm_aux (lsize (removeEmptyGenerics l))).2 _ (Nat.le_refl _)
    (removeEmptyGenerics_noEmpty l)

/-- Everything of a node except its `indent`, `content` and `children` —
the fields the wrapper remover may rewrite. -/
def sig (n : ElementNode) :
    String × String × String × Nat × Bool × Int × Bool × Option String :=
  (n.type, n.ref, n.line, n.lineNumber, n.hasInteraction, n.priority, n.isRepetitive, n.groupId)

/-- The signatures of all non-`generic` nodes of a forest, in pre-order. -/
def nonGenSigF (l : List ElementNode) :
    List (String × String × String × Nat × Bool × Int × Bool × Option String) :=
  (preorderF l).filterMap (fun n => if n.type = "generic" then none else some (sig n))

/-- The signatures of all non-`generic` nodes of a subtree, in pre-order. -/
def nonGenSigN (n : ElementNode) :
    List (String × String × String × Nat × Bool × Int × Bool × Option String) :=
  (preorderN n).filterMap (fun n => if n.type = "generic" then none else some (sig n))

theorem nonGenSigF_nil : nonGenSigF [] = [] := rfl

theorem nonGenSigF_cons (n : ElementNode) (rest : List ElementNode) :
    nonGenSigF (n :: rest) = nonGenSigN n ++ nonGenSigF rest := by
  unfold nonGenSigF nonGenSigN
  rw [preorderF, List.filterMap_append]

theorem nonGenSigN_eq (n : ElementNode) :
    nonGenSigN n =
      (if n.type = "generic" then [] else [sig n]) ++ nonGenSigF n.children := by
  unfold nonGenSigN nonGenSigF
  rw [preorderN_eq, List.filterMap_cons]
  by_cases h : n.type = "generic"
  · rw [if_pos h, if_pos h, List.nil_append]
  · rw [if_neg h, if_neg h, List.singleton_append]

theorem nonGenSigF_singleton (c : ElementNode) : nonGenSigF [c] = nonGenSigN c := by
  rw [nonGenSigF_cons, nonGenSigF_nil, List.append_nil]

theorem nonGenSigN_set_children (n : ElementNode) (v : List ElementNode) :
    nonGenSigN { n with children := v } =
      (if n.type = "generic" then [] else [sig n]) ++ nonGenSigF v := by
  rw [nonGenSigN_eq]
  rfl

theorem sig_mergeAttributes (p c : ElementNode) : sig (mergeAttributes p c) = sig c := rfl

theorem nonGenSigF_removeEmptyGenerics (l : List ElementNode) :
    nonGenSigF (removeEmptyGenerics l) = nonGenSigF l := by
  induction l using removeEmptyGenerics.induct with
  | case1 => rw [removeEmptyGenerics]
  | case2 n rest n' hemp ihc ihr =>
    rw [removeEmptyGenerics]
    simp only [hemp, if_true]
    rw [ihr, nonGenSigF_cons, nonGenSigN_eq]
    simp only [isEmptyGeneric] at hemp
    have hty : n.type = "generic" := by
      rcases Bool.and_eq_true_iff.mp hemp with ⟨h1, _⟩
      rcases Bool.and_eq_true_iff.mp h1 with ⟨h2, _⟩
      simpa using h2
    have hch : removeEmptyGenerics n.children = [] := by
      rcases Bool.and_eq_true_iff.mp hemp with ⟨h1, _⟩
      rcases Bool.and_eq_true_iff.mp h1 with ⟨_, h3⟩
      simpa [List.isEmpty_iff] using h3
    rw [if_pos hty, List.nil_append, ← ihc, hch, nonGenSigF_nil, List.nil_append]
  | case3 n rest n' hemp ihc ihr =>
    rw [removeEmptyGenerics]
    simp only [hemp, Bool.false_eq_true, if_false]
    rw [nonGenSigF_cons, nonGenSigF_cons, nonGenSigN_set_children, ihr, ihc, ← nonGenSigN_eq]

theorem sig_aux : ∀ k : Nat,
    (∀ node : ElementNode, nsize node ≤ k →
      nonGenSigN (collapseLoop node) = nonGenSigN node) ∧
    (∀ n : ElementNode, nsize n ≤ k → nonGenSigN (processNode n) = nonGenSigN n) ∧
    (∀ l : List ElementNode, lsize l ≤ k →
      nonGenSigF (l.map processNode) = nonGenSigF l) ∧
    (∀ l : List ElementNode, lsize l ≤ k →
      nonGenSigF (removeWrappers l) = nonGenSigF l) := by
  intro k
  induction k with
  | zero =>
    refine ⟨fun node h => absurd h (Nat.not_le.mpr (nsize_pos node)),
      fun n h => absurd h (Nat.not_le.mpr (nsize_pos n)), ?_, ?_⟩
    · intro l h
      cases l with
      | nil => rfl
      | cons a rest => rw [lsize_cons] at h; have := nsize_pos a; omega
    · intro l h
      cases l with
      | nil => rw [removeWrappers_nil]
      | cons a rest => rw [lsize_cons] at h; have := nsize_pos a; omega
  | succ k ih =>
    have collapsePart : ∀ node : ElementNode, nsize node ≤ k + 1 →
        nonGenSigN (collapseLoop node) = nonGenSigN node := by
      intro node hsz
      by_cases hgen : node.type = "generic" ∧ ∃ c, node.children = [c]
      · obtain ⟨hg, c, hc⟩ := hgen
        have e1 := nsize_eq node
        have e3 : lsize node.children = nsize c + 0 := by rw [hc]; rfl
        have e4 := nsize_eq c
        rw [collapseLoop_single node c hc hg, mergeAttributes_children]
        have hsz2 : nsize ({ mergeAttributes node c with
            children := removeWrappers c.children } : ElementNode) ≤ k := by
          have h1 : nsize ({ mergeAttributes node c with
              children := removeWrappers c.children } : ElementNode) ≤
              nsize (mergeAttributes node c) := by
            apply nsize_update_le
            rw [mergeAttributes_children]
            exact lsize_removeWrappers_le c.children
          rw [nsize_mergeAttributes] at h1
          omega
        rw [ih.1 _ hsz2, nonGenSigN_set_children, ih.2.2.2 c.children (by omega)]
        simp only [mergeAttributes_type, sig_mergeAttributes]
        rw [nonGenSigN_eq node, hc, if_pos hg, List.nil_append, nonGenSigF_singleton,
          nonGenSigN_eq c]
      · rw [collapseLoop_id node hgen]
    have nodePart : ∀ n : ElementNode, nsize n ≤ k + 1 →
        nonGenSigN (processNode n) = nonGenSigN n := by
      intro n hsz
      rw [processNode_def]
      have hsz1 : nsize ({ n with children := removeWrappers n.children } : ElementNode) ≤
          k + 1 :=
        le_trans (nsize_update_le n _ (lsize_removeWrappers_le n.children)) hsz
      rw [collapsePart _ hsz1, nonGenSigN_set_children,
        ih.2.2.2 n.children (by have := nsize_eq n; omega)]
      exact (nonGenSigN_eq n).symm
    have mapPart : ∀ l : List ElementNode, lsize l ≤ k + 1 →
        nonGenSigF (l.map processNode) = nonGenSigF l := by
      intro l
      induction l with
      | nil => intro _; rfl
      | cons a rest ihl =>
        intro hsz
        rw [lsize_cons] at hsz
        have hpa := nsize_pos a
        rw [List.map_cons, nonGenSigF_cons, nonGenSigF_cons, nodePart a (by omega),
          ihl (by omega)]
    refine ⟨collapsePart, nodePart, mapPart, ?_⟩
    intro l hsz
    rw [removeWrappers_def, mapPart _ (le_trans (lsize_removeEmptyGenerics_le l) hsz),
      nonGenSigF_removeEmptyGenerics]

/-- Frame property of the wrapper remover: the pre-order list of
signatures of the non-`generic` nodes is preserved exactly. -/
theorem removeWrappers_nonGenSig (l : List ElementNode) :
    nonGenSigF (removeWrappers l) = nonGenSigF l :=
  (sig_aux (lsize l)).2.2.2 l (Nat.le_refl _)

/-- The reference ids carried by non-`generic` nodes of a forest, in
pre-order (JS-falsy empty refs excluded, as `refs` filters do). -/
def nonGenRefs (l : List ElementNode) : List String :=
  (preorderF l).filterMap
    (fun n => if n.type ≠ "generic" ∧ n.ref ≠ "" then some n.ref else none)

theorem nonGenRefs_eq_sig (l : List ElementNode) :
    nonGenRefs l = (nonGenSigF l).filterMap
      (fun s => if s.1 ≠ "generic" ∧ s.2.1 ≠ "" then some s.2.1 else none) := by
  unfold nonGenRefs nonGenSigF
  rw [List.filterMap_filterMap]
  apply List.filterMap_congr
  intro n hn
  by_cases h : n.type = "generic"
  · rw [if_pos h]
    simp [h]
  · rw [if_neg h]
    rfl

/-- Reference ids on non-`generic` nodes survive wrapper removal, in order
and multiplicity. -/
theorem removeWrappers_nonGenRefs (l : List ElementNode) :
    nonGenRefs (removeWrappers l) = nonGenRefs l := by
  rw [nonGenRefs_eq_sig, nonGenRefs_eq_sig, removeWrappers_nonGenSig]

theorem removeEmptyGenerics_leaf (n : ElementNode) (hc : n.children = [])
    (he : isEmptyGeneric n = true) : removeEmptyGenerics [n] = [] := by
  rw [removeEmptyGenerics, hc, removeEmptyGenerics]
  rw [set_children_eq n [] hc.symm]
  simp only [he, if_true]

/-- A single empty-`generic` leaf is erased entirely (even when it carries
a reference id). -/
theorem removeWrappers_leaf_empty (n : ElementNode) (hc : n.children = [])
    (he : isEmptyGeneric n = true) : removeWrappers [n] = [] := by
  rw [removeWrappers_def, removeEmptyGenerics_leaf n hc he]
  rfl

end UselessWrapperRemover

/-! ## SmartOutlineSimple, rendering -/

namespace SmartOutlineSimple

/-- `TEXT_TRUNCATE_LENGTH`. -/
def TEXT_TRUNCATE_LENGTH : Nat := 50

/-- `MAX_REFS_IN_SUMMARY`. -/
def MAX_REFS_IN_SUMMARY : Nat := 5

/-- `formatNode`: indent, kind, truncated content, ref, interaction marker. -/
def formatNode (node : ElementNode) : String :=
  let result := spaces node.indent ++ "- " ++ node.type
  let result :=
    if node.content ≠ "" then
      let content :=
        if TEXT_TRUNCATE_LENGTH < node.content.length then
          String.mk (node.content.data.take TEXT_TRUNCATE_LENGTH) ++ "..."
        else node.content
      result ++ " " ++ content
    else result
  let result := if node.ref ≠ "" then result ++ " [ref=" ++ node.ref ++ "]" else result
  if node.hasInteraction then result ++ " [cursor=pointer]" else result

/-- `formatList`: the sample node in full, then (for groups of 2 or more) a
fold line listing at most `MAX_REFS_IN_SUMMARY` of the remaining refs. -/
def formatList (list : ListDetector.ListPattern) : List String :=
  let indent := spaces list.sample.indent
  let output := [formatNode list.sample]
  if 1 < list.count then
    let remaining := list.count - 1
    let refs := jsSlice list.refs 1
      (min ((MAX_REFS_IN_SUMMARY : Int) + 1) (list.refs.length : Int))
    let foldLine := indent ++ "- " ++ list.sample.type ++
      " (... and " ++ toString remaining ++ " more similar)"
    let foldLine :=
      if refs.length > 0 then
        let fl := foldLine ++ " [refs: " ++ String.intercalate ", " refs
        let fl := if MAX_REFS_IN_SUMMARY + 1 < list.refs.length then fl ++ ", ..." else fl
        fl ++ "]"
      else foldLine
    output ++ [foldLine]
  else output

/-- `processWithListDetection`: fold detected sibling lists, render the rest
individually, recurse into children (`attach` is used only to justify
termination). -/
def processWithListDetection (nodes : List ElementNode) : List String :=
  if 3 ≤ nodes.length then
    let lists := ListDetector.detectLists nodes
    if lists.isEmpty then
      nodes.attach.flatMap fun n =>
        formatNode n.val ::
          (if n.val.children.length > 0 then processWithListDetection n.val.children else [])
    else
      (lists.attach.flatMap fun l =>
        formatList l.val ++
          (if l.val.sample.children.length > 0 then
            processWithListDetection l.val.sample.children
          else [])) ++
      (let listItems := lists.flatMap (·.items)
      ((nodes.filter (fun n => !listItems.contains n)).attach.flatMap fun n =>
        formatNode n.val ::
          (if n.val.children.length > 0 then processWithListDetection n.val.children else [])))
  else
    nodes.attach.flatMap fun n =>
      formatNode n.val ::
        (if n.val.children.length > 0 then processWithListDetection n.val.children else [])
termination_by lsize nodes
decreasing_by
  · have hm := nsize_le_lsize_of_mem n.property
    have he := nsize_eq n.val
    omega
  · have hs := ListDetector.detectLists_sample_mem l.property
    have hm := nsize_le_lsize_of_mem hs
    have he := nsize_eq l.val.sample
    omega
  · have hm := nsize_le_lsize_of_mem (List.mem_of_mem_filter n.property)
    have he := nsize_eq n.val
    omega
  · have hm := nsize_le_lsize_of_mem n.property
    have he := nsize_eq n.val
    omega

/-- `SmartOutlineSimple.generate`. -/
def generate (snapshot : String) : String :=
  let lines := jsLines snapshot
  let rootNodes := buildTree lines
  let rootNodes := UselessWrapperRemover.removeWrappers rootNodes
  let outlineLines := processWithListDetection rootNodes
  "Page Outline (" ++ toString outlineLines.length ++ "/" ++ toString lines.length ++
    " lines):\n" ++ String.intercalate "\n" outlineLines

/-- The reference ids present in the input, as parsed by `parseLine` (one
occurrence per input line carrying a nonempty `[ref=...]` marker). -/
def inputRefs (snapshot : String) : List String :=
  (jsLines snapshot).enum.filterMap fun p =>
    match parseLine p.2 p.1 with
    | some n => if n.ref ≠ "" then some n.ref else none
    | none => none

theorem processWithListDetection_nil : processWithListDetection [] = [] := by
  rw [processWithListDetection]
  rfl

theorem generate_empty : generate "" = "Page Outline (0/1 lines):\n" := by
  have h0 : generate "" =
      "Page Outline (" ++
        toString (processWithListDetection
          (UselessWrapperRemover.removeWrappers (buildTree (jsLines "")))).length ++
        "/" ++ toString (jsLines "").length ++ " lines):\n" ++
        String.intercalate "\n" (processWithListDetection
          (UselessWrapperRemover.removeWrappers (buildTree (jsLines "")))) := rfl
  rw [h0]
  have h1 : buildTree (jsLines "") = [] := rfl
  rw [h1, UselessWrapperRemover.removeWrappers_nil, processWithListDetection_nil]
  rfl

theorem generate_wrapperRef :
    generate "- generic [ref=e1]" = "Page Outline (0/1 lines):\n" := by
  have h0 : generate "- generic [ref=e1]" =
      "Page Outline (" ++
        toString (processWithListDetection
          (UselessWrapperRemover.removeWrappers
            (buildTree (jsLines "- generic [ref=e1]")))).length ++
        "/" ++ toString (jsLines "- generic [ref=e1]").length ++ " lines):\n" ++
        String.intercalate "\n" (processWithListDetection
          (UselessWrapperRemover.removeWrappers
            (buildTree (jsLines "- generic [ref=e1]")))) := rfl
  rw [h0]
  have h1 : buildTree (jsLines "- generic [ref=e1]") =
      [⟨0, "generic", "e1", "", "- generic [ref=e1]", 0, false, 5, false, none, []⟩] := by
    rfl
  rw [h1, UselessWrapperRemover.removeWrappers_leaf_empty _ rfl (by decide),
    processWithListDetection_nil]
  rfl

end SmartOutlineSimple

/-! ## Tree-builder invariants (strict indentation, line order) -/

namespace SmartOutlineSimple

/-- Every node of the forest has children strictly more indented than
itself. -/
def StrictIndF (l : List ElementNode) : Prop :=
  ∀ m ∈ preorderF l, ∀ c ∈ m.children, m.indent < c.indent

/-- Subtree version of `StrictIndF`. -/
def StrictIndN (n : ElementNode) : Prop :=
  ∀ m ∈ preorderN n, ∀ c ∈ m.children, m.indent < c.indent

theorem strictIndF_nil : StrictIndF [] := by
  intro m hm
  simp [preorderF] at hm

theorem strictIndF_cons {n : ElementNode} {rest : List ElementNode} :
    StrictIndF (n :: rest) ↔ StrictIndN n ∧ StrictIndF rest := by
  unfold StrictIndF StrictIndN
  rw [preorderF]
  constructor
  · intro h
    exact ⟨fun m hm => h m (List.mem_append_left _ hm),
      fun m hm => h m (List.mem_append_right _ hm)⟩
  · rintro ⟨h1, h2⟩ m hm
    rcases List.mem_append.mp hm with hm | hm
    · exact h1 m hm
    · exact h2 m hm

theorem strictIndN_iff {n : ElementNode} :
    StrictIndN n ↔ (∀ c ∈ n.children, n.indent < c.indent) ∧ StrictIndF n.children := by
  unfold StrictIndN StrictIndF
  rw [UselessWrapperRemover.preorderN_eq]
  constructor
  · intro h
    exact ⟨h n (List.mem_cons_self _ _), fun m hm => h m (List.mem_cons_of_mem _ hm)⟩
  · rintro ⟨h1, h2⟩ m hm
    rcases List.mem_cons.mp hm with rfl | hm
    · exact h1
    · exact h2 m hm

theorem strictIndF_of_forall {l : List ElementNode}
    (h : ∀ t ∈ l, StrictIndN t) : StrictIndF l := by
  induction l with
  | nil => exact strictIndF_nil
  | cons a rest ih =>
    rw [strictIndF_cons]
    exact ⟨h a (List.mem_cons_self _ _), ih fun t ht => h t (List.mem_cons_of_mem _ ht)⟩

theorem strictIndF_append {l1 l2 : List ElementNode} :
    StrictIndF (l1 ++ l2) ↔ StrictIndF l1 ∧ StrictIndF l2 := by
  unfold StrictIndF
  rw [UselessWrapperRemover.preorderF_append]
  constructor
  · intro h
    exact ⟨fun m hm => h m (List.mem_append_left _ hm),
      fun m hm => h m (List.mem_append_right _ hm)⟩
  · rintro ⟨h1, h2⟩ m hm
    rcases List.mem_append.mp hm with hm | hm
    · exact h1 m hm
    · exact h2 m hm

/-- The head of the stack (if any) is less indented than `x`. -/
def TopLt (x : Nat) : List (ElementNode × List ElementNode) → Prop
  | [] => True
  | (p, _) :: _ => p.indent < x

/-- Invariant of the builder's stack: every open node has no committed
children yet, its accumulated children are finished strictly-deeper
subtrees, and indents strictly decrease towards the bottom. -/
def GoodStack : List (ElementNode × List ElementNode) → Prop
  | [] => True
  | (m, acc) :: rest =>
    m.children = [] ∧ (∀ t ∈ acc, StrictIndN t ∧ m.indent < t.indent) ∧
      TopLt m.indent rest ∧ GoodStack rest

theorem strictIndN_finalize {m : ElementNode} {acc : List ElementNode}
    (hacc : ∀ t ∈ acc, StrictIndN t ∧ m.indent < t.indent) :
    StrictIndN { m with children := acc } := by
  rw [strictIndN_iff]
  constructor
  · intro c hc
    exact (hacc c hc).2
  · exact strictIndF_of_forall fun t ht => (hacc t ht).1

theorem popAux_good (ind : Nat) :
    ∀ (stack : List (ElementNode × List ElementNode)) (roots : List ElementNode)
      (c : ElementNode), GoodStack stack → StrictIndF roots → StrictIndN c →
      TopLt c.indent stack →
      GoodStack (popAux ind c stack roots).1 ∧ StrictIndF (popAux ind c stack roots).2 ∧
        TopLt ind (popAux ind c stack roots).1 := by
  intro stack
  induction stack with
  | nil =>
    intro roots c _ hr hc _
    rw [popAux]
    refine ⟨trivial, ?_, trivial⟩
    rw [strictIndF_append]
    exact ⟨hr, by rw [strictIndF_cons]; exact ⟨hc, strictIndF_nil⟩⟩
  | cons e r2 ih =>
    obtain ⟨p, pacc⟩ := e
    intro roots c hg hr hc htop
    obtain ⟨hpch, hpacc, hptop, hr2⟩ := hg
    rw [popAux]
    by_cases hle : ind ≤ p.indent
    · rw [if_pos hle]
      apply ih
      · exact hr2
      · exact hr
      · apply strictIndN_finalize
        intro t ht
        rcases List.mem_append.mp ht with ht | ht
        · exact hpacc t ht
        · rcases List.mem_singleton.mp ht with rfl
          exact ⟨hc, htop⟩
      · exact hptop
    · rw [if_neg hle]
      refine ⟨⟨hpch, ?_, hptop, hr2⟩, hr, ?_⟩
      · intro t ht
        rcases List.mem_append.mp ht with ht | ht
        · exact hpacc t ht
        · rcases List.mem_singleton.mp ht with rfl
          exact ⟨hc, htop⟩
      · show p.indent < ind
        omega

theorem popGE_good (ind : Nat) (stack : List (ElementNode × List ElementNode))
    (roots : List ElementNode) (hg : GoodStack stack) (hr : StrictIndF roots) :
    GoodStack (popGE ind stack roots).1 ∧ StrictIndF (popGE ind stack roots).2 ∧
      TopLt ind (popGE ind stack roots).1 := by
  cases stack with
  | nil =>
    rw [popGE]
    exact ⟨trivial, hr, trivial⟩
  | cons e rest =>
    obtain ⟨m, acc⟩ := e
    obtain ⟨hmch, hmacc, hmtop, hrest⟩ := hg
    rw [popGE]
    by_cases hle : ind ≤ m.indent
    · rw [if_pos hle]
      apply popAux_good
      · exact hrest
      · exact hr
      · exact strictIndN_finalize hmacc
      · exact hmtop
    · rw [if_neg hle]
      refine ⟨⟨hmch, hmacc, hmtop, hrest⟩, hr, ?_⟩
      show m.indent < ind
      omega

theorem parseLine_shape {line : String} {i : Nat} {n : ElementNode}
    (h : parseLine line i = some n) : n.children = [] ∧ n.lineNumber = i := by
  unfold parseLine at h
  dsimp only at h
  cases hc : parseLineCore line.data with
  | none => rw [hc] at h; cases h
  | some pr =>
    obtain ⟨tok, rest⟩ := pr
    rw [hc] at h
    dsimp only at h
    cases hf : findRefAux rest 0 with
    | none =>
      rw [hf] at h
      injection h with h
      subst h
      exact ⟨rfl, rfl⟩
    | some pr2 =>
      obtain ⟨idx, cap⟩ := pr2
      rw [hf] at h
      injection h with h
      subst h
      exact ⟨rfl, rfl⟩

theorem buildStep_good {st : List (ElementNode × List ElementNode) × List ElementNode}
    {n : ElementNode} (hg : GoodStack st.1) (hr : StrictIndF st.2)
    (hch : n.children = []) :
    GoodStack (buildStep st n).1 ∧ StrictIndF (buildStep st n).2 := by
  have h := popGE_good n.indent st.1 st.2 hg hr
  rw [buildStep]
  rcases hpg : popGE n.indent st.1 st.2 with ⟨stack, roots⟩
  rw [hpg] at h
  refine ⟨⟨hch, ?_, h.2.2, h.1⟩, h.2.1⟩
  intro t ht
  cases ht

theorem buildLine_good {st : List (ElementNode × List ElementNode) × List ElementNode}
    (hg : GoodStack st.1) (hr : StrictIndF st.2) (p : Nat × String) :
    GoodStack (buildLine st p).1 ∧ StrictIndF (buildLine st p).2 := by
  rw [buildLine]
  by_cases hb : (p.2.data.dropWhile isJsSpace).isEmpty = true
  · rw [if_pos hb]
    exact ⟨hg, hr⟩
  · rw [if_neg hb]
    cases hpl : parseLine p.2 p.1 with
    | none => exact ⟨hg, hr⟩
    | some n => exact buildStep_good hg hr (parseLine_shape hpl).1

theorem foldl_buildLine_good (ps : List (Nat × String)) :
    ∀ st, GoodStack st.1 → StrictIndF st.2 →
      GoodStack (ps.foldl buildLine st).1 ∧ StrictIndF (ps.foldl buildLine st).2 := by
  induction ps with
  | nil => intro st hg hr; exact ⟨hg, hr⟩
  | cons p ps ih =>
    intro st hg hr
    rw [List.foldl_cons]
    obtain ⟨h1, h2⟩ := buildLine_good hg hr p
    exact ih _ h1 h2

theorem buildTree_strictInd (lines : List String) : StrictIndF (buildTree lines) := by
  unfold buildTree
  obtain ⟨h1, h2⟩ := foldl_buildLine_good lines.enum ([], []) trivial strictIndF_nil
  rcases hst : lines.enum.foldl buildLine ([], []) with ⟨stack, roots⟩
  rw [hst] at h1 h2
  exact (popGE_good 0 stack roots h1 h2).2.1

/-- Pre-order line numbers of a forest. -/
def lnsF (l : List ElementNode) : List Nat := (preorderF l).map (fun n => n.lineNumber)

/-- Pre-order line numbers of a subtree. -/
def lnsN (n : ElementNode) : List Nat := (preorderN n).map (fun n => n.lineNumber)

/-- Line numbers held by the stack, bottom entry first. -/
def stackSeq : List (ElementNode × List ElementNode) → List Nat
  | [] => []
  | (m, acc) :: rest => stackSeq rest ++ (m.lineNumber :: lnsF acc)

/-- All line numbers committed in a builder state, in input order. -/
def mseq (st : List (ElementNode × List ElementNode) × List ElementNode) : List Nat :=
  lnsF st.2 ++ stackSeq st.1

theorem lnsF_nil : lnsF [] = [] := rfl

theorem lnsF_cons (n : ElementNode) (rest : List ElementNode) :
    lnsF (n :: rest) = lnsN n ++ lnsF rest := by
  unfold lnsF lnsN
  rw [preorderF, List.map_append]

theorem lnsF_append (l1 l2 : List ElementNode) : lnsF (l1 ++ l2) = lnsF l1 ++ lnsF l2 := by
  unfold lnsF
  rw [UselessWrapperRemover.preorderF_append, List.map_append]

theorem lnsN_eq (n : ElementNode) : lnsN n = n.lineNumber :: lnsF n.children := by
  unfold lnsN lnsF
  rw [UselessWrapperRemover.preorderN_eq, List.map_cons]

theorem lnsN_set_children (m : ElementNode) (v : List ElementNode) :
    lnsN { m with children := v } = m.lineNumber :: lnsF v := by
  rw [lnsN_eq]

theorem lnsF_singleton (c : ElementNode) : lnsF [c] = lnsN c := by
  rw [lnsF_cons, lnsF_nil, List.append_nil]

theorem popAux_seq (ind : Nat) :
    ∀ (stack : List (ElementNode × List ElementNode)) (roots : List ElementNode)
      (c : ElementNode),
      lnsF (popAux ind c stack roots).2 ++ stackSeq (popAux ind c stack roots).1 =
        lnsF roots ++ stackSeq stack ++ lnsN c := by
  intro stack
  induction stack with
  | nil =>
    intro roots c
    rw [popAux]
    simp only [stackSeq, lnsF_append, lnsF_singleton, List.append_nil]
  | cons e r2 ih =>
    obtain ⟨p, pacc⟩ := e
    intro roots c
    rw [popAux]
    by_cases hle : ind ≤ p.indent
    · rw [if_pos hle, ih, lnsN_set_children, lnsF_append, lnsF_singleton]
      rw [stackSeq]
      simp [List.append_assoc]
    · rw [if_neg hle]
      rw [stackSeq, stackSeq, lnsF_append, lnsF_singleton]
      simp [List.append_assoc]

theorem popGE_seq (ind : Nat) (stack : List (ElementNode × List ElementNode))
    (roots : List ElementNode) :
    lnsF (popGE ind stack roots).2 ++ stackSeq (popGE ind stack roots).1 =
      lnsF roots ++ stackSeq stack := by
  cases stack with
  | nil => rw [popGE]
  | cons e rest =>
    obtain ⟨m, acc⟩ := e
    rw [popGE]
    by_cases hle : ind ≤ m.indent
    · rw [if_pos hle, popAux_seq, lnsN_set_children]
      rw [stackSeq]
      simp [List.append_assoc]
    · rw [if_neg hle]

theorem buildStep_seq (st : List (ElementNode × List ElementNode) × List ElementNode)
    (n : ElementNode) : mseq (buildStep st n) = mseq st ++ [n.lineNumber] := by
  unfold mseq buildStep
  have h := popGE_seq n.indent st.1 st.2
  rcases hpg : popGE n.indent st.1 st.2 with ⟨stack, roots⟩
  rw [hpg] at h
  dsimp only
  rw [stackSeq, lnsF_nil, ← h]
  simp [List.append_assoc]

/-- The contribution of one input line: its index if it parses, nothing
otherwise. -/
def parsedLN (p : Nat × String) : List Nat :=
  match parseLine p.2 p.1 with
  | some n => [n.lineNumber]
  | none => []

theorem parseLine_blank {line : String} (i : Nat)
    (hb : (line.data.dropWhile isJsSpace).isEmpty = true) :
    parseLine line i = none := by
  unfold parseLine parseLineCore
  dsimp only
  rw [List.isEmpty_iff.mp hb]

theorem buildLine_seq (st : List (ElementNode × List ElementNode) × List ElementNode)
    (p : Nat × String) : mseq (buildLine st p) = mseq st ++ parsedLN p := by
  rw [buildLine, parsedLN]
  by_cases hb : (p.2.data.dropWhile isJsSpace).isEmpty = true
  · rw [if_pos hb, parseLine_blank p.1 hb]
    simp
  · rw [if_neg hb]
    cases hpl : parseLine p.2 p.1 with
    | none => simp
    | some n => rw [buildStep_seq]

theorem foldl_buildLine_seq (ps : List (Nat × String)) :
    ∀ st, mseq (ps.foldl buildLine st) = mseq st ++ ps.flatMap parsedLN := by
  induction ps with
  | nil => intro st; simp
  | cons p ps ih =>
    intro st
    rw [List.foldl_cons, ih, buildLine_seq]
    simp

theorem popAux_zero_stack :
    ∀ (stack : List (ElementNode × List ElementNode)) (c : ElementNode)
      (roots : List ElementNode), (popAux 0 c stack roots).1 = [] := by
  intro stack
  induction stack with
  | nil => intro c roots; rw [popAux]
  | cons e r2 ih =>
    obtain ⟨p, pacc⟩ := e
    intro c roots
    rw [popAux, if_pos (Nat.zero_le _)]
    exact ih _ _

theorem popGE_zero_stack (stack : List (ElementNode × List ElementNode))
    (roots : List ElementNode) : (popGE 0 stack roots).1 = [] := by
  cases stack with
  | nil => rw [popGE]
  | cons e rest =>
    obtain ⟨m, acc⟩ := e
    rw [popGE, if_pos (Nat.zero_le _)]
    exact popAux_zero_stack _ _ _

/-- The pre-order of the built forest lists exactly the parsed lines, in
input order. -/
theorem buildTree_lineNumbers (lines : List String) :
    lnsF (buildTree lines) = lines.enum.flatMap parsedLN := by
  unfold buildTree
  have h3 := foldl_buildLine_seq lines.enum ([], [])
  rcases hst : lines.enum.foldl buildLine ([], []) with ⟨stack, roots⟩
  rw [hst] at h3
  dsimp only
  have h1 := popGE_seq 0 stack roots
  have h2 := popGE_zero_stack stack roots
  rw [h2, stackSeq, List.append_nil] at h1
  unfold mseq at h3
  simp only [stackSeq, lnsF_nil, List.nil_append] at h3
  rw [h1, h3]

theorem flatMap_parsedLN (ps : List (Nat × String)) :
    ps.flatMap parsedLN =
      (ps.filter (fun p => (parseLine p.2 p.1).isSome)).map (fun p => p.1) := by
  induction ps with
  | nil => rfl
  | cons p ps ih =>
    rw [List.flatMap_cons, List.filter_cons]
    cases hpl : parseLine p.2 p.1 with
    | none => simp [parsedLN, hpl, ih]
    | some n =>
      have h2 := (parseLine_shape hpl).2
      simp [parsedLN, hpl, ih, h2]

/-! ### Parser acceptance condition -/

/-- Declarative reading of the regex `^\s*-\s*([a-z]+)(.*)$` with
ECMAScript semantics: optional whitespace, a dash, optional whitespace,
then at least one lowercase ASCII letter, and a remainder free of line
terminators (`.` cannot match one and `$` anchors at the end of input). -/
def AcceptsLine (line : String) : Prop :=
  ∃ ws1 ws2 tok rest : List Char,
    line.data = ws1 ++ '-' :: (ws2 ++ (tok ++ rest)) ∧
    (∀ c ∈ ws1, isJsSpace c = true) ∧ (∀ c ∈ ws2, isJsSpace c = true) ∧
    tok ≠ [] ∧ (∀ c ∈ tok, isLowerAZ c = true) ∧
    (∀ c ∈ rest, isLineTerm c = false)

theorem isJsSpace_bounds {c : Char} (h : isJsSpace c = true) :
    c.toNat < 97 ∨ 122 < c.toNat := by
  unfold isJsSpace at h
  simp only [Bool.or_eq_true, Bool.and_eq_true, decide_eq_true_eq] at h
  rcases h with
    ((((((((((((((h | h) | h) | h) | h) | h) | h) | h) | ⟨h1, h2⟩) | h) | h) | h) | h) | h) | h)
  · subst h; left; decide
  · subst h; left; decide
  · subst h; left; decide
  · subst h; left; decide
  · have hx : c.toNat = 11 := congrArg UInt32.toNat h; omega
  · have hx : c.toNat = 12 := congrArg UInt32.toNat h; omega
  · have hx : c.toNat = 160 := congrArg UInt32.toNat h; omega
  · have hx : c.toNat = 5760 := congrArg UInt32.toNat h; omega
  · have ha : 8192 ≤ c.toNat := h1
    omega
  · have hx : c.toNat = 8232 := congrArg UInt32.toNat h; omega
  · have hx : c.toNat = 8233 := congrArg UInt32.toNat h; omega
  · have hx : c.toNat = 8239 := congrArg UInt32.toNat h; omega
  · have hx : c.toNat = 8287 := congrArg UInt32.toNat h; omega
  · have hx : c.toNat = 12288 := congrArg UInt32.toNat h; omega
  · have hx : c.toNat = 65279 := congrArg UInt32.toNat h; omega

theorem not_space_of_lower {c : Char} (h : isLowerAZ c = true) : isJsSpace c = false := by
  unfold isLowerAZ at h
  rw [Bool.and_eq_true] at h
  have h1 : 97 ≤ c.toNat := of_decide_eq_true h.1
  have h2 : c.toNat ≤ 122 := of_decide_eq_true h.2
  cases hs : isJsSpace c with
  | false => rfl
  | true => rcases isJsSpace_bounds hs with h3 | h3 <;> omega

theorem isLineTerm_bounds {c : Char} (h : isLineTerm c = true) :
    c.toNat < 97 ∨ 122 < c.toNat := by
  unfold isLineTerm at h
  simp only [Bool.or_eq_true, decide_eq_true_eq] at h
  rcases h with ((h | h) | h) | h
  · subst h; left; decide
  · subst h; left; decide
  · have hx : c.toNat = 8232 := congrArg UInt32.toNat h; omega
  · have hx : c.toNat = 8233 := congrArg UInt32.toNat h; omega

theorem not_term_of_lower {c : Char} (h : isLowerAZ c = true) : isLineTerm c = false := by
  unfold isLowerAZ at h
  rw [Bool.and_eq_true] at h
  have h1 : 97 ≤ c.toNat := of_decide_eq_true h.1
  have h2 : c.toNat ≤ 122 := of_decide_eq_true h.2
  cases ht : isLineTerm c with
  | false => rfl
  | true => rcases isLineTerm_bounds ht with h3 | h3 <;> omega

theorem dropWhile_append_all {p : Char → Bool} {ws l : List Char}
    (h : ∀ c ∈ ws, p c = true) : (ws ++ l).dropWhile p = l.dropWhile p := by
  induction ws with
  | nil => rfl
  | cons a t ih =>
    rw [List.cons_append, List.dropWhile_cons, if_pos (h a (List.mem_cons_self _ _))]
    exact ih fun c hc => h c (List.mem_cons_of_mem _ hc)

theorem parseLineCore_isSome_iff (l : List Char) :
    (parseLineCore l).isSome = true ↔
      ∃ ws1 ws2 tok rest : List Char,
        l = ws1 ++ '-' :: (ws2 ++ (tok ++ rest)) ∧
        (∀ c ∈ ws1, isJsSpace c = true) ∧ (∀ c ∈ ws2, isJsSpace c = true) ∧
        tok ≠ [] ∧ (∀ c ∈ tok, isLowerAZ c = true) ∧
        (∀ c ∈ rest, isLineTerm c = false) := by
  constructor
  · intro h
    unfold parseLineCore at h
    cases hd : l.dropWhile isJsSpace with
    | nil => rw [hd] at h; cases h
    | cons c r1 =>
      rw [hd] at h
      dsimp only at h
      by_cases hc : c = '-'
      swap
      · rw [if_neg hc] at h; cases h
      rw [if_pos hc] at h
      subst hc
      by_cases ht : (List.takeWhile isLowerAZ (r1.dropWhile isJsSpace)).isEmpty = true
      · rw [if_pos ht] at h; cases h
      · rw [if_neg ht] at h
        by_cases hr : ((r1.dropWhile isJsSpace).dropWhile isLowerAZ).any isLineTerm = true
        · rw [if_pos hr] at h; cases h
        · have hr2 : ((r1.dropWhile isJsSpace).dropWhile isLowerAZ).any isLineTerm =
              false := by
            cases hvl : ((r1.dropWhile isJsSpace).dropWhile isLowerAZ).any isLineTerm with
            | false => rfl
            | true => exact absurd hvl hr
          refine ⟨l.takeWhile isJsSpace, r1.takeWhile isJsSpace,
            (r1.dropWhile isJsSpace).takeWhile isLowerAZ,
            (r1.dropWhile isJsSpace).dropWhile isLowerAZ, ?_, ?_, ?_, ?_, ?_, ?_⟩
          · conv_lhs => rw [← List.takeWhile_append_dropWhile isJsSpace l]
            rw [hd, List.takeWhile_append_dropWhile, List.takeWhile_append_dropWhile]
          · intro x hx; exact List.mem_takeWhile_imp hx
          · intro x hx; exact List.mem_takeWhile_imp hx
          · intro heq
            apply ht
            rw [heq]
            rfl
          · intro x hx; exact List.mem_takeWhile_imp hx
          · intro x hx
            simpa using List.any_eq_false.mp hr2 x hx
  · rintro ⟨ws1, ws2, tok, rest, hl, hws1, hws2, htok, hlow, hterm⟩
    obtain ⟨t0, tok', rfl⟩ : ∃ t0 tok', tok = t0 :: tok' := by
      cases tok with
      | nil => exact absurd rfl htok
      | cons a b => exact ⟨a, b, rfl⟩
    unfold parseLineCore
    rw [hl, dropWhile_append_all hws1, List.dropWhile_cons,
      if_neg (by rw [show isJsSpace '-' = false from rfl]; exact Bool.false_ne_true)]
    dsimp only
    rw [if_pos rfl, dropWhile_append_all hws2, List.cons_append, List.dropWhile_cons,
      not_space_of_lower (hlow t0 (List.mem_cons_self _ _))]
    simp only [Bool.false_eq_true, if_false]
    rw [List.takeWhile_cons, if_pos (hlow t0 (List.mem_cons_self _ _))]
    simp only [List.isEmpty_cons, Bool.false_eq_true, if_false]
    have hrest : (List.dropWhile isLowerAZ (t0 :: (tok' ++ rest))).any isLineTerm =
        false := by
      rw [List.any_eq_false]
      intro x hx
      have hx2 : x ∈ t0 :: (tok' ++ rest) := (List.dropWhile_suffix isLowerAZ).subset hx
      have hx3 : x ∈ (t0 :: tok') ++ rest := by simpa using hx2
      rcases List.mem_append.mp hx3 with hxt | hxr
      · simp [not_term_of_lower (hlow x hxt)]
      · simp [hterm x hxr]
    rw [hrest]
    simp only [Bool.false_eq_true, if_false]
    rfl

theorem parseLine_isSome_iff (line : String) (i : Nat) :
    (parseLine line i).isSome = true ↔ AcceptsLine line := by
  unfold AcceptsLine
  rw [← parseLineCore_isSome_iff line.data]
  unfold parseLine
  dsimp only
  cases hc : parseLineCore line.data with
  | none => simp
  | some pr =>
    obtain ⟨tok, rest⟩ := pr
    cases hf : findRefAux rest 0 with
    | none => simp
    | some pr2 =>
      obtain ⟨idx, cap⟩ := pr2
      simp

theorem buildLine_none {line : String} {i : Nat}
    (h : parseLine line i = none)
    (st : List (ElementNode × List ElementNode) × List ElementNode) :
    buildLine st (i, line) = st := by
  rw [buildLine]
  by_cases hb : (line.data.dropWhile isJsSpace).isEmpty = true
  · rw [if_pos hb]
  · rw [if_neg hb]
    dsimp only
    rw [h]

end SmartOutlineSimple

/-! ## SmartOutlineGenerator (the smart renderer)

The source mutates shared node objects (`isRepetitive`/`groupId` marking);
functionally, nodes are keyed by their unique `lineNumber` and the marking
is applied as a rewriting pass over every container.  JS `Map`s are
association lists with insertion-order semantics (`mapSet` updates in
place, appends new keys at the end).  The `OutlineOptions` interface file
is not part of the source dump; its fields are reconstructed from use
(`Partial` default-merging happens at the call site, `generate` receives
the merged record). -/

namespace SmartOutlineGenerator

structure OutlineOptions where
  maxLines : Int
  mode : String
  preserveStructure : Bool
  foldThreshold : Nat
  deriving Repr, DecidableEq

structure ElementGroup where
  type : String
  indent : Nat
  count : Nat
  firstElement : ElementNode
  samples : List ElementNode
  refs : List String
  startLine : Nat
  endLine : Nat
  deriving Repr, DecidableEq

/-- `PageStructure`; the `nodes` and `nodesByLine` maps are association
lists in insertion order.  (`priorityQueue` is initialized empty and never
read.) -/
structure PageStructure where
  nodes : List (String × ElementNode)
  nodesByLine : List (Nat × ElementNode)
  groups : List ElementGroup
  priorityQueue : List ElementNode
  totalLines : Nat
  rootNodes : List ElementNode

def highPriorityTypes : List String :=
  ["heading", "button", "link", "searchbox", "navigation", "main", "form", "article",
   "section"]

def mediumPriorityTypes : List String :=
  ["list", "listitem", "textbox", "checkbox", "radio", "select", "table"]

def lowPriorityTypes : List String := ["generic", "separator", "img", "text"]

/-- The generator's `parseLine`: same acceptance as the simple generator's,
but its node literal omits `hasInteraction` (undefined, i.e. false). -/
def parseLine (line : String) (lineNumber : Nat) : Option ElementNode :=
  let chars := line.data
  let indent := (chars.takeWhile isJsSpace).length
  match parseLineCore chars with
  | none => none
  | some (tok, rest) =>
    let (ref, content) :=
      match findRefAux rest 0 with
      | some (idx, cap) => (String.mk cap, String.mk (jsTrim (rest.take idx)))
      | none => ("", String.mk rest)
    some
      { indent := indent
        type := String.mk tok
        ref := ref
        content := content
        line := line
        lineNumber := lineNumber
        hasInteraction := false
        priority := 5
        isRepetitive := false
        groupId := none
        children := [] }

/-- `calculatePriority`. -/
def calculatePriority (node : ElementNode) : Int :=
  let score : Int := 5
  let score :=
    if highPriorityTypes.contains node.type then score + 3
    else if mediumPriorityTypes.contains node.type then score + 1
    else if lowPriorityTypes.contains node.type then score - 2
    else score
  let score := score - ((node.indent / 8 : Nat) : Int)
  let score :=
    if node.content ≠ "" then
      let score := if 10 < node.content.length then score + 1 else score
      let score :=
        if containsSub "[cursor=pointer]".data node.content.data then score + 1 else score
      let score := if containsSub "/url:".data node.content.data then score + 1 else score
      if containsSub "[level=".data node.content.data then score + 2 else score
    else score
  let score := if node.type = "searchbox" then 10 else score
  let score := if node.type = "navigation" then 9 else score
  max 0 (min 10 score)

/-- The tree-building loop of `buildPageStructure` (same stack discipline
as `SmartOutlineSimple.buildTree`, with the priority computed on parse). -/
def buildLineG (st : List (ElementNode × List ElementNode) × List ElementNode)
    (p : Nat × String) : List (ElementNode × List ElementNode) × List ElementNode :=
  if (p.2.data.dropWhile isJsSpace).isEmpty then st
  else
    match parseLine p.2 p.1 with
    | none => st
    | some n => SmartOutlineSimple.buildStep st { n with priority := calculatePriority n }

def rootNodesOf (lines : List String) : List ElementNode :=
  let st := lines.enum.foldl buildLineG ([], [])
  (SmartOutlineSimple.popGE 0 st.1 st.2).2

/-- JS `Map.prototype.set`: update in place, or append a new key. -/
def mapSet {K V : Type} [DecidableEq K] : List (K × V) → K → V → List (K × V)
  | [], k, v => [(k, v)]
  | (k0, v0) :: rest, k, v =>
    if k0 = k then (k, v) :: rest else (k0, v0) :: mapSet rest k v

/-- `buildPageStructure`.  The JS loop fills the maps at parse time with
the very objects that later accrete their children; by loop end each
stored node carries its final subtree and the insertion order equals the
line order, which equals the pre-order of the finished forest (cf.
`buildTree_lineNumbers`), so the maps are rebuilt from the pre-order. -/
def buildPageStructure (lines : List String) : PageStructure :=
  let roots := rootNodesOf lines
  let pre := preorderF roots
  { nodes := pre.foldl (fun m n => if n.ref ≠ "" then mapSet m n.ref n else m) []
    nodesByLine := pre.foldl (fun m n => mapSet m n.lineNumber n) []
    groups := []
    priorityQueue := []
    totalLines := lines.length
    rootNodes := roots }

def typeIndentKey (n : ElementNode) : String := toString n.indent ++ "-" ++ n.type

/-- `typeIndentMap.get(key)!.push(node)` with insertion-order keys. -/
def mapPush : List (String × List ElementNode) → String → ElementNode →
    List (String × List ElementNode)
  | [], k, v => [(k, [v])]
  | (k0, g) :: rest, k, v =>
    if k0 = k then (k0, g ++ [v]) :: rest else (k0, g) :: mapPush rest k v

def buildTypeIndentMap (s : PageStructure) : List (String × List ElementNode) :=
  s.nodesByLine.foldl (fun m kv => mapPush m (typeIndentKey kv.2) kv.2) []

/-- Stable insertion sort by ascending line number (`a.lineNumber -
b.lineNumber`). -/
def insertByLineNumber (x : ElementNode) : List ElementNode → List ElementNode
  | [] => [x]
  | y :: rest =>
    if y.lineNumber < x.lineNumber then y :: insertByLineNumber x rest else x :: y :: rest

def sortByLineNumber : List ElementNode → List ElementNode
  | [] => []
  | x :: rest => insertByLineNumber x (sortByLineNumber rest)

/-- One step of `findConsecutiveGroups`: state is (emitted groups, current
group). -/
def fcgStep (st : List (List ElementNode) × List ElementNode) (node : ElementNode) :
    List (List ElementNode) × List ElementNode :=
  if st.2.isEmpty then (st.1, [node])
  else
    let lastNode := st.2.getLastD default
    let isConsecutive := ((node.lineNumber : Int) - (lastNode.lineNumber : Int)).natAbs < 100
    let isSibling := node.indent = lastNode.indent
    if isConsecutive ∧ isSibling then (st.1, st.2 ++ [node])
    else (st.1 ++ (if 3 ≤ st.2.length then [st.2] else []), [node])

/-- `findConsecutiveGroups`. -/
def findConsecutiveGroups (nodes : List ElementNode) : List (List ElementNode) :=
  let st := nodes.foldl fcgStep ([], [])
  st.1 ++ (if 3 ≤ st.2.length then [st.2] else [])

/-- `createElementGroup` (callers guarantee at least 3 nodes). -/
def createElementGroup (nodes : List ElementNode) : ElementGroup :=
  let first := nodes.getD 0 default
  { type := first.type
    indent := first.indent
    count := nodes.length
    firstElement := first
    samples := nodes.take (min 3 nodes.length)
    refs := (nodes.map (·.ref)).filter (· ≠ "")
    startLine := first.lineNumber
    endLine := (nodes.getD (nodes.length - 1) default).lineNumber }

/-- Per-group step of `detectRepetitiveGroups`: push the group and record
the `isRepetitive`/`groupId` marking for its members (the `groupId` uses
the group count after the push). -/
def drgStep (st : List ElementGroup × List (Nat × String)) (g : List ElementNode) :
    List ElementGroup × List (Nat × String) :=
  if 3 ≤ g.length then
    let eg := createElementGroup g
    let gid := eg.type ++ "-" ++ toString eg.indent ++ "-" ++ toString (st.1.length + 1)
    (st.1 ++ [eg], st.2 ++ g.map (fun n => (n.lineNumber, gid)))
  else st

def drgKeyStep (st : List ElementGroup × List (Nat × String))
    (kv : String × List ElementNode) : List ElementGroup × List (Nat × String) :=
  if kv.2.length < 3 then st
  else (findConsecutiveGroups (sortByLineNumber kv.2)).foldl drgStep st

def drgAux (s : PageStructure) : List ElementGroup × List (Nat × String) :=
  (buildTypeIndentMap s).foldl drgKeyStep ([], [])

def markLookup (marks : List (Nat × String)) (ln : Nat) : Option String :=
  match marks with
  | [] => none
  | (k, g) :: rest => if k = ln then some g else markLookup rest ln

mutual
/-- Apply the repetitive-group marking to a node and its subtree (the JS
mutation reaches every alias of a marked object). -/
def applyMarkN (marks : List (Nat × String)) : ElementNode → ElementNode
  | ⟨i, t, r, c, l, k, h, p, v, g, ch⟩ =>
    match markLookup marks k with
    | some gid => ⟨i, t, r, c, l, k, h, p, true, some gid, applyMarkL marks ch⟩
    | none => ⟨i, t, r, c, l, k, h, p, v, g, applyMarkL marks ch⟩

def applyMarkL (marks : List (Nat × String)) : List ElementNode → List ElementNode
  | [] => []
  | n :: rest => applyMarkN marks n :: applyMarkL marks rest
end

/-- Stable insertion sort by descending `count` (`b.count - a.count`). -/
def insertByCountDesc (x : ElementGroup) : List ElementGroup → List ElementGroup
  | [] => [x]
  | y :: rest =>
    if x.count < y.count then y :: insertByCountDesc x rest else x :: y :: rest

def sortByCountDesc : List ElementGroup → List ElementGroup
  | [] => []
  | x :: rest => insertByCountDesc x (sortByCountDesc rest)

def applyMarkG (marks : List (Nat × String)) (g : ElementGroup) : ElementGroup :=
  { g with
    firstElement := applyMarkN marks g.firstElement
    samples := applyMarkL marks g.samples }

/-- `detectRepetitiveGroups` (functional: returns the updated structure). -/
def detectRepetitiveGroups (s : PageStructure) : PageStructure :=
  let r := drgAux s
  { s with
    groups := sortByCountDesc (r.1.map (applyMarkG r.2))
    nodes := s.nodes.map (fun kv => (kv.1, applyMarkN r.2 kv.2))
    nodesByLine := s.nodesByLine.map (fun kv => (kv.1, applyMarkN r.2 kv.2))
    rootNodes := applyMarkL r.2 s.rootNodes }

/-- The generator's `formatNode` (interaction marker read from the raw
line). -/
def formatNode (node : ElementNode) (depthOffset : Nat) : String :=
  spaces (node.indent + depthOffset * 2) ++ "- " ++ node.type ++
  (if node.content ≠ "" then " " ++ node.content else "") ++
  (if node.ref ≠ "" then " [ref=" ++ node.ref ++ "]" else "") ++
  (if containsSub "[cursor=pointer]".data node.line.data then " [cursor=pointer]" else "")

def isStructuralElement (node : ElementNode) : Bool :=
  ["navigation", "main", "header", "footer", "article", "section", "aside"].contains
    node.type || node.indent ≤ 4

theorem lsize_append (l1 l2 : List ElementNode) :
    lsize (l1 ++ l2) = lsize l1 + lsize l2 := by
  induction l1 with
  | nil =>
    rw [List.nil_append]
    have h0 : lsize ([] : List ElementNode) = 0 := rfl
    omega
  | cons a t ih =>
    rw [List.cons_append, lsize_cons, lsize_cons, ih]
    omega

theorem lsize_filter_le (p : ElementNode → Bool) (l : List ElementNode) :
    lsize (l.filter p) ≤ lsize l := by
  induction l with
  | nil => exact Nat.le_refl _
  | cons a t ih =>
    rw [List.filter_cons]
    by_cases h : p a = true
    · rw [if_pos h, lsize_cons, lsize_cons]
      omega
    · rw [if_neg h, lsize_cons]
      have := nsize_pos a
      omega

/-- The inner "important children" loop of `extractSkeleton` (breaks at
the line budget). -/
def skelChildren (maxLines : Int) : List ElementNode → List String → Nat →
    List String × Nat
  | [], acc, ln => (acc, ln)
  | c :: cs, acc, ln =>
    if maxLines ≤ (ln : Int) then (acc, ln)
    else skelChildren maxLines cs (acc ++ [formatNode c 1]) (ln + 1)

/-- The breadth-first `while` loop of `extractSkeleton`. -/
def skelLoop (maxLines : Int) : List ElementNode → Nat → List String → List String
  | [], _, acc => acc
  | node :: queue, ln, acc =>
    if (ln : Int) < maxLines then
      if 7 ≤ node.priority ∨ isStructuralElement node = true then
        let r := skelChildren maxLines ((node.children.filter (fun c => 6 ≤ c.priority)).take 3)
          (acc ++ [formatNode node 0]) (ln + 1)
        skelLoop maxLines (queue ++ node.children.filter (fun c => 5 ≤ c.priority)) r.2 r.1
      else skelLoop maxLines (queue ++ node.children.filter (fun c => 5 ≤ c.priority)) ln acc
    else acc
termination_by q => lsize q
decreasing_by
  all_goals
    rw [lsize_append, lsize_cons]
    have h1 := lsize_filter_le (fun c => decide (5 ≤ c.priority)) node.children
    have h2 := nsize_eq node
    omega

def extractSkeleton (s : PageStructure) (maxLines : Int) : List String :=
  skelLoop maxLines s.rootNodes 0 []

def digitsVal (l : List Char) : Nat := l.foldl (fun a c => a * 10 + (c.toNat - 48)) 0

/-- Match of `lineNumber:(\d+)` at the head of `l`. -/
def matchLineTagAt (l : List Char) : Option Nat :=
  if "lineNumber:".data.isPrefixOf l then
    let ds := (l.drop 11).takeWhile Char.isDigit
    if ds.isEmpty then none else some (digitsVal ds)
  else none

/-- First match of `/lineNumber:(\d+)/` in the rendered line. -/
def findLineTag : List Char → Option Nat
  | [] => none
  | c :: rest =>
    match matchLineTagAt (c :: rest) with
    | some v => some v
    | none => findLineTag rest

/-- The `usedLines` additions from the skeleton lines (a JS `Set`; only
membership is ever queried, so a plain list is an equivalent model). -/
def usedFromSkeleton (skeleton : List String) : List Nat :=
  skeleton.foldl
    (fun used line =>
      match findLineTag line.data with
      | some v => used ++ [v]
      | none => used) []

/-- `renderGroup`. -/
def renderGroup (group : ElementGroup) (maxLines : Int) : List String :=
  let output := formatNode group.firstElement 0 ::
    ((group.firstElement.children.take (min 3 group.firstElement.children.length)).map
      (fun c => formatNode c 1))
  let output :=
    if 1 < group.count then
      let remainingCount := group.count - 1
      let sampleRefs := jsSlice group.refs 1 (min 4 (group.refs.length : Int))
      let refsStr := String.intercalate ", " sampleRefs
      output ++ [spaces group.indent ++ "- " ++ group.type ++ " (... and " ++
        toString remainingCount ++ " more similar) [refs: " ++ refsStr ++
        (if 3 < remainingCount then ", ...]" else "]")]
    else output
  jsSlice output 0 maxLines

/-- The folded-groups loop of `generateSmartOutline` (state: output,
remaining budget, used lines). -/
def groupsLoop : List ElementGroup → Int → List String → List Nat →
    List String × Int × List Nat
  | [], remaining, out, used => (out, remaining, used)
  | g :: gs, remaining, out, used =>
    if remaining ≤ 5 then (out, remaining, used)
    else
      let go := renderGroup g remaining
      if (go.length : Int) ≤ remaining then
        groupsLoop gs (remaining - go.length) (out ++ go)
          (used ++ List.range' g.startLine (g.endLine + 1 - g.startLine))
      else groupsLoop gs remaining out used

/-- Stable insertion sort by descending priority (`b.priority -
a.priority`). -/
def insertByPriorityDesc (x : ElementNode) : List ElementNode → List ElementNode
  | [] => [x]
  | y :: rest =>
    if x.priority < y.priority then y :: insertByPriorityDesc x rest else x :: y :: rest

def sortByPriorityDesc : List ElementNode → List ElementNode
  | [] => []
  | x :: rest => insertByPriorityDesc x (sortByPriorityDesc rest)

/-- The high-priority fill loop of `generateSmartOutline`. -/
def prioLoop : List ElementNode → Int → List String → List String × Int
  | [], remaining, out => (out, remaining)
  | n :: ns, remaining, out =>
    if remaining ≤ 0 then (out, remaining)
    else prioLoop ns (remaining - 1) (out ++ [formatNode n 0])

/-- `generateSmartOutline`.  `Math.floor(remainingLines * 0.3)` is modelled
as `⌊3·maxLines/10⌋`; the float product can round differently for huge
budgets but its sign — all that the ≤/< tests below can observe near 0 —
is exact. -/
def generateSmartOutline (s : PageStructure) (options : OutlineOptions) : List String :=
  let skeleton := extractSkeleton s (Int.fdiv (3 * options.maxLines) 10)
  let remaining1 := options.maxLines - (skeleton.length : Int)
  let used1 := usedFromSkeleton skeleton
  let r2 := groupsLoop s.groups remaining1 skeleton used1
  let priorityNodes := sortByPriorityDesc
    ((s.nodes.map (·.2)).filter
      (fun n => !(r2.2.2.contains n.lineNumber) && !n.isRepetitive))
  let r3 := prioLoop priorityNodes r2.2.1 r2.1
  if r3.2 ≤ 0 ∧ options.maxLines < (s.totalLines : Int) then
    r3.1 ++ ["... (" ++ toString ((s.totalLines : Int) - options.maxLines) ++ " more lines)"]
  else r3.1

/-- `SmartOutlineGenerator.generate`. -/
def generate (snapshot : String) (options : OutlineOptions) : String :=
  if options.mode = "simple" then
    String.intercalate "\n" (jsSlice (jsLines snapshot) 0 options.maxLines)
  else
    let lines := jsLines snapshot
    let st := detectRepetitiveGroups (buildPageStructure lines)
    let outputLines := generateSmartOutline st options
    "Page Outline (" ++ toString outputLines.length ++ "/" ++ toString st.totalLines ++
      " lines):\n" ++ String.intercalate "\n" outputLines

theorem skelLoop_stop {m : Int} (q : List ElementNode) (ln : Nat) (acc : List String)
    (h : m ≤ (ln : Int)) : skelLoop m q ln acc = acc := by
  cases q with
  | nil => rw [skelLoop]
  | cons n rest => rw [skelLoop, if_neg (not_lt.mpr h)]

theorem extractSkeleton_nonpos (s : PageStructure) {m : Int} (hm : m ≤ 0) :
    extractSkeleton s m = [] := by
  unfold extractSkeleton
  exact skelLoop_stop _ 0 [] (by simpa using hm)

theorem groupsLoop_stop {r : Int} (hr : r ≤ 5) (gs : List ElementGroup)
    (out : List String) (used : List Nat) : groupsLoop gs r out used = (out, r, used) := by
  cases gs with
  | nil => rw [groupsLoop]
  | cons g gs2 => rw [groupsLoop, if_pos hr]

theorem prioLoop_stop {r : Int} (hr : r ≤ 0) (ns : List ElementNode)
    (out : List String) : prioLoop ns r out = (out, r) := by
  cases ns with
  | nil => rw [prioLoop]
  | cons n ns2 => rw [prioLoop, if_pos hr]

theorem intercalate_singleton (s a : String) : String.intercalate s [a] = a := by
  simp [String.intercalate]
  rfl

/-- With a non-positive budget the skeleton, group and priority passes all
short-circuit and only the truncation summary is emitted. -/
theorem generateSmartOutline_nonpos (s : PageStructure) (options : OutlineOptions)
    (hml : options.maxLines ≤ 0) (ht : 1 ≤ s.totalLines) :
    generateSmartOutline s options =
      ["... (" ++ toString ((s.totalLines : Int) - options.maxLines) ++ " more lines)"] := by
  unfold generateSmartOutline
  have hfd : Int.fdiv (3 * options.maxLines) 10 ≤ 0 := by
    rw [Int.fdiv_eq_ediv _ (by norm_num)]
    omega
  rw [extractSkeleton_nonpos s hfd]
  dsimp only
  rw [groupsLoop_stop (by simp; omega)]
  dsimp only
  rw [prioLoop_stop (by simp; omega)]
  dsimp only
  have h1 : (1 : Int) ≤ (s.totalLines : Int) := by exact_mod_cast ht
  rw [if_pos ⟨by simp; omega, by omega⟩]
  simp

end SmartOutlineGenerator

/-! ## Concrete sibling lists used to exercise the list detector -/

namespace ListDetector

/-- A childless sibling node of the given type, reference id and line
number. -/
def mkLeaf (ty r : String) (k : Nat) : ElementNode :=
  ⟨0, ty, r, "", "", k, false, 5, false, none, []⟩

/-- Three `listitem` siblings followed by three structurally similar `text`
siblings. -/
def w3nodes : List ElementNode :=
  [mkLeaf "listitem" "a1" 0, mkLeaf "listitem" "a2" 1, mkLeaf "listitem" "a3" 2,
   mkLeaf "text" "b1" 3, mkLeaf "text" "b2" 4, mkLeaf "text" "b3" 5]

/-- The semantic pattern the detector returns for `w3nodes`. -/
def w3P : ListPattern :=
  ⟨.semantic, 0, 2, 3, mkLeaf "listitem" "a1" 0,
   [mkLeaf "listitem" "a1" 0, mkLeaf "listitem" "a2" 1, mkLeaf "listitem" "a3" 2],
   ["a1", "a2", "a3"]⟩

/-- The structural pattern the detector returns for `w3nodes`. -/
def w3Q : ListPattern :=
  ⟨.structural, 3, 5, 3, mkLeaf "text" "b1" 3,
   [mkLeaf "text" "b1" 3, mkLeaf "text" "b2" 4, mkLeaf "text" "b3" 5],
   ["b1", "b2", "b3"]⟩

/-- Two `heading` siblings, four `text` siblings, one more `heading`: the
similarity search over the heading indent-group `{0, 1, 6}` reports the
whole span `0..6`, which overlaps the `text` pattern `2..5`. -/
def cexNodes : List ElementNode :=
  [mkLeaf "heading" "h0" 0, mkLeaf "heading" "h1" 1, mkLeaf "text" "t2" 2,
   mkLeaf "text" "t3" 3, mkLeaf "text" "t4" 4, mkLeaf "text" "t5" 5,
   mkLeaf "heading" "h6" 6]

/-- The span-`0..6` structural pattern returned for `cexNodes`: its `items`
slice contains all seven siblings. -/
def cexP : ListPattern :=
  ⟨.structural, 0, 6, 3, mkLeaf "heading" "h0" 0, cexNodes,
   ["h0", "h1", "t2", "t3", "t4", "t5", "h6"]⟩

/-- The span-`2..5` structural pattern returned for `cexNodes`. -/
def cexQ : ListPattern :=
  ⟨.structural, 2, 5, 4, mkLeaf "text" "t2" 2,
   [mkLeaf "text" "t2" 2, mkLeaf "text" "t3" 3, mkLeaf "text" "t4" 4,
    mkLeaf "text" "t5" 5],
   ["t2", "t3", "t4", "t5"]⟩

end ListDetector

/-! ## The claims -/

/-- C1 (counterexample): the input line `- generic [ref=e1]` carries the
reference id `e1`, but the generated outline drops it entirely — the
wrapper remover deletes an empty `generic` node even when it carries a
reference id, so reference ids are not conserved by `generate`. -/
theorem claim_C1_cex :
    SmartOutlineSimple.inputRefs "- generic [ref=e1]" = ["e1"] ∧
    SmartOutlineSimple.generate "- generic [ref=e1]" = "Page Outline (0/1 lines):\n" ∧
    containsSub "e1".data
      (SmartOutlineSimple.generate "- generic [ref=e1]").data = false := by
  refine ⟨rfl, SmartOutlineSimple.generate_wrapperRef, ?_⟩
  rw [SmartOutlineSimple.generate_wrapperRef]
  decide

/-- C1 (amended): wrapper removal deletes only `generic` nodes; the
reference ids carried by non-`generic` nodes are conserved exactly (same
ids, same order, same multiplicity) by `removeWrappers`.  (Reference ids on
`generic` nodes may be dropped, as the counterexample shows.) -/
theorem claim_C1 (l : List ElementNode) :
    UselessWrapperRemover.nonGenRefs (UselessWrapperRemover.removeWrappers l) =
      UselessWrapperRemover.nonGenRefs l :=
  UselessWrapperRemover.removeWrappers_nonGenRefs l

/-- C2: every `ListPattern` returned by `detectLists` groups at least 3
sibling items (`count ≥ 3` and `items.length ≥ 3`); runs of 1 or 2 similar
siblings are never reported as a pattern, hence never folded. -/
theorem claim_C2 (nodes : List ElementNode) (p : ListDetector.ListPattern)
    (hp : p ∈ ListDetector.detectLists nodes) :
    3 ≤ p.items.length ∧ 3 ≤ p.count := by
  have h := ListDetector.detectLists_count3 nodes p hp
  exact ⟨h.2, h.1⟩

/-- Witness for C2 at the concrete sibling list `w3nodes`. -/
theorem claim_C2_witness :
    ListDetector.w3P ∈ ListDetector.detectLists ListDetector.w3nodes ∧
    (3 ≤ ListDetector.w3P.items.length ∧ 3 ≤ ListDetector.w3P.count) :=
  ⟨by decide, claim_C2 ListDetector.w3nodes ListDetector.w3P (by decide)⟩

/-- C3 (counterexample): on `cexNodes` (seven pairwise distinct siblings)
`detectLists` returns two patterns that overlap: the structural pattern
spanning `0..6` and the structural pattern spanning `2..5` share the
sibling `t2`.  The returned patterns are not pairwise non-overlapping. -/
theorem claim_C3_cex :
    ListDetector.cexP ∈ ListDetector.detectLists ListDetector.cexNodes ∧
    ListDetector.cexQ ∈ ListDetector.detectLists ListDetector.cexNodes ∧
    ListDetector.cexP ≠ ListDetector.cexQ ∧
    ListDetector.mkLeaf "text" "t2" 2 ∈ ListDetector.cexP.items ∧
    ListDetector.mkLeaf "text" "t2" 2 ∈ ListDetector.cexQ.items ∧
    ListDetector.cexNodes.Nodup := by
  refine ⟨by decide, by decide, by decide, by decide, by decide, by decide⟩

/-- C3 (amended): members of a *semantic* pattern are excluded from the
structural pass and semantic ranges are disjoint, so a semantic pattern
never shares an item with any other returned pattern (sibling nodes
assumed pairwise distinct, modelling JS object identity).  Two structural
patterns can still overlap, as the counterexample shows. -/
theorem claim_C3 (nodes : List ElementNode) (hnd : nodes.Nodup) :
    ∀ p ∈ ListDetector.detectLists nodes, ∀ q ∈ ListDetector.detectLists nodes,
      p.type = .semantic → p ≠ q → ∀ x ∈ p.items, x ∉ q.items :=
  ListDetector.detectLists_semantic_nonoverlap_core nodes hnd

/-- Witness for C3 at the concrete sibling list `w3nodes`. -/
theorem claim_C3_witness :
    ListDetector.w3nodes.Nodup ∧
    ListDetector.w3P ∈ ListDetector.detectLists ListDetector.w3nodes ∧
    ListDetector.w3Q ∈ ListDetector.detectLists ListDetector.w3nodes ∧
    ListDetector.w3P.type = .semantic ∧ ListDetector.w3P ≠ ListDetector.w3Q ∧
    ListDetector.mkLeaf "listitem" "a1" 0 ∈ ListDetector.w3P.items ∧
    ListDetector.mkLeaf "listitem" "a1" 0 ∉ ListDetector.w3Q.items :=
  ⟨by decide, by decide, by decide, rfl, by decide, by decide,
   claim_C3 ListDetector.w3nodes (by decide) ListDetector.w3P (by decide)
     ListDetector.w3Q (by decide) rfl (by decide)
     (ListDetector.mkLeaf "listitem" "a1" 0) (by decide)⟩

/-- C4: `removeWrappers` is idempotent — its output is in normal form (no
empty `generic`, no single-child `generic` anywhere), and normal forms are
fixed points, so a second run changes nothing. -/
theorem claim_C4 (l : List ElementNode) :
    UselessWrapperRemover.removeWrappers (UselessWrapperRemover.removeWrappers l) =
      UselessWrapperRemover.removeWrappers l :=
  UselessWrapperRemover.removeWrappers_of_norm _ (UselessWrapperRemover.removeWrappers_norm l)

/-- C5 (counterexample): the empty input splits into one (empty) line, so
`generate` reports `0/1`, not the `0/0` the spec promises. -/
theorem claim_C5_cex :
    SmartOutlineSimple.generate "" = "Page Outline (0/1 lines):\n" ∧
    SmartOutlineSimple.generate "" ≠ "Page Outline (0/0 lines):" := by
  refine ⟨SmartOutlineSimple.generate_empty, ?_⟩
  rw [SmartOutlineSimple.generate_empty]
  decide

/-- C5 (amended): `split('\n')` never yields zero lines — the empty input
has exactly one (empty) line, and `generate` returns the header
`Page Outline (0/1 lines):` followed by nothing. -/
theorem claim_C5 :
    (jsLines "").length = 1 ∧
    SmartOutlineSimple.generate "" = "Page Outline (0/1 lines):\n" :=
  ⟨rfl, SmartOutlineSimple.generate_empty⟩

/-- C6 (counterexample): with `maxLines = 0` in smart mode the renderer
does not fail — it returns a plain outline string whose header claims one
output line and whose body is only the truncation summary. -/
theorem claim_C6_cex :
    SmartOutlineGenerator.generate "" (.mk 0 "smart" true 3) =
      "Page Outline (1/1 lines):\n... (1 more lines)" := by
  unfold SmartOutlineGenerator.generate
  rw [if_neg (by decide)]
  dsimp only
  rw [SmartOutlineGenerator.generateSmartOutline_nonpos _ _ (by decide) (by decide),
    SmartOutlineGenerator.intercalate_singleton]
  decide

/-- C6 (amended): for every input and every non-simple-mode configuration
with a non-positive line budget, the renderer does not fail fast: it
returns the well-formed header plus a single `... (N more lines)` summary
(where N counts all input lines plus the unused negative budget). -/
theorem claim_C6 (snapshot : String) (options : SmartOutlineGenerator.OutlineOptions)
    (hm : options.mode ≠ "simple") (hml : options.maxLines ≤ 0) :
    SmartOutlineGenerator.generate snapshot options =
      "Page Outline (1/" ++ toString (jsLines snapshot).length ++ " lines):\n... (" ++
        toString (((jsLines snapshot).length : Int) - options.maxLines) ++
        " more lines)" := by
  unfold SmartOutlineGenerator.generate
  rw [if_neg hm]
  dsimp only
  have htl : (SmartOutlineGenerator.detectRepetitiveGroups
      (SmartOutlineGenerator.buildPageStructure (jsLines snapshot))).totalLines =
      (jsLines snapshot).length := rfl
  rw [SmartOutlineGenerator.generateSmartOutline_nonpos _ options hml
    (by rw [htl]; exact jsLines_length_pos snapshot)]
  rw [htl, SmartOutlineGenerator.intercalate_singleton]
  simp only [List.length_singleton]
  rw [show toString (1 : Nat) = "1" from rfl]
  simp only [String.append_assoc]
  rw [← String.append_assoc "Page Outline (" "1" , ← String.append_assoc _ "/",
    show ("Page Outline (" ++ "1" ++ "/" : String) = "Page Outline (1/" from rfl,
    ← String.append_assoc " lines):\n" "... (",
    show (" lines):\n" ++ "... (" : String) = " lines):\n... (" from rfl]

/-- Witness for C6 at a two-line snapshot and a budget of `-2`. -/
theorem claim_C6_witness :
    (SmartOutlineGenerator.OutlineOptions.mk (-2) "smart" true 3).mode ≠ "simple" ∧
    (SmartOutlineGenerator.OutlineOptions.mk (-2) "smart" true 3).maxLines ≤ 0 ∧
    SmartOutlineGenerator.generate "a\nb" (.mk (-2) "smart" true 3) =
      "Page Outline (1/2 lines):\n... (4 more lines)" :=
  ⟨by decide, by decide, by
    rw [claim_C6 "a\nb" (.mk (-2) "smart" true 3) (by decide) (by decide)]
    decide⟩

/-- C7: in every forest built by `buildTree`, children are strictly more
indented than their parent, and the pre-order traversal lists exactly the
parseable input lines in input order — so each node's descendants form a
contiguous block of the accepted lines, with no later sibling interleaved. -/
theorem claim_C7 (lines : List String) :
    (∀ n ∈ preorderF (SmartOutlineSimple.buildTree lines),
      ∀ c ∈ n.children, n.indent < c.indent) ∧
    (preorderF (SmartOutlineSimple.buildTree lines)).map (fun n => n.lineNumber) =
      (lines.enum.filter
        (fun p => (SmartOutlineSimple.parseLine p.2 p.1).isSome)).map (fun p => p.1) :=
  ⟨SmartOutlineSimple.buildTree_strictInd lines,
   (SmartOutlineSimple.buildTree_lineNumbers lines).trans
     (SmartOutlineSimple.flatMap_parsedLN lines.enum)⟩

/-- C8: fingerprint similarity at the default threshold 3 is symmetric and
reflexive (`hammingDistance` is built on XOR, and a hash XOR itself is 0). -/
theorem claim_C8 (a b : ElementNode) :
    DOMSimHash.areSimilar a b 3 = DOMSimHash.areSimilar b a 3 ∧
    DOMSimHash.areSimilar a a 3 = true := by
  constructor
  · unfold DOMSimHash.areSimilar DOMSimHash.hammingDistance
    rw [Nat.xor_comm]
  · unfold DOMSimHash.areSimilar DOMSimHash.hammingDistance
    rw [Nat.xor_self]
    rfl

/-- C9: the wrapper remover only ever deletes `generic` nodes; every
non-`generic` node survives with its `type`, `ref`, `line`, `lineNumber`,
`hasInteraction`, `priority`, `isRepetitive` and `groupId` unchanged and in
the same pre-order position — only `indent`, `content` and `children` may
be rewritten. -/
theorem claim_C9 (l : List ElementNode) :
    UselessWrapperRemover.nonGenSigF (UselessWrapperRemover.removeWrappers l) =
      UselessWrapperRemover.nonGenSigF l :=
  UselessWrapperRemover.removeWrappers_nonGenSig l

/-- C10 (counterexample): the line `"- a\r"` — exactly what `split('\n')`
yields on CRLF input — has the shape the claim describes (optional
whitespace, a dash, optional whitespace, a lowercase kind token), yet
`parseLine` returns `none`: the regex's `(.*)$` cannot span the carriage
return, so acceptance is not determined by that prefix shape alone. -/
theorem claim_C10_cex :
    SmartOutlineSimple.parseLine "- a\r" 0 = none ∧
    ("- a\r" : String).data = [] ++ '-' :: ([' '] ++ (['a'] ++ ['\r'])) ∧
    (∀ c ∈ ([] : List Char), isJsSpace c = true) ∧
    (∀ c ∈ ([' '] : List Char), isJsSpace c = true) ∧
    (['a'] : List Char) ≠ [] ∧
    (∀ c ∈ (['a'] : List Char), isLowerAZ c = true) := by
  refine ⟨rfl, rfl, ?_, ?_, ?_, ?_⟩ <;> decide

/-- C10 (amended): `parseLine` accepts a line exactly when it consists of
optional whitespace, a dash, optional whitespace, a lowercase-ASCII kind
token and a remainder free of ECMAScript line terminators (which `.` never
matches and `$` cannot skip); and a line it rejects leaves the
tree-builder state untouched. -/
theorem claim_C10 (line : String) (i : Nat)
    (st : List (ElementNode × List ElementNode) × List ElementNode) :
    ((SmartOutlineSimple.parseLine line i).isSome = true ↔
      SmartOutlineSimple.AcceptsLine line) ∧
    (SmartOutlineSimple.buildLine st (i, line) = st ∨
      (SmartOutlineSimple.parseLine line i).isSome = true) := by
  refine ⟨SmartOutlineSimple.parseLine_isSome_iff line i, ?_⟩
  cases hpl : SmartOutlineSimple.parseLine line i with
  | none => exact Or.inl (SmartOutlineSimple.buildLine_none hpl st)
  | some n => exact Or.inr rfl

end BetterPlaywright
